import Mathlib

/-!
mongoose-history: diff computation, history-record construction, metadata enrichment.

A shallow embedding of `lib/mongoose-history.js` (the `historyPlugin` closure) and the
properties of it that the specification states.

Modelling conventions.

* JavaScript values are the JSON-like fragment `JsVal` (plus dates).  An object is its list of
  own enumerable properties in enumeration order (`Obj`); property reads see own data properties
  only.
* Functions supplied by the caller (`customDiffAlgo`, metadata functions) are total Lean
  functions; a metadata function is recorded with its declared parameter count.
* Collaborators outside the file are parameters: the clock (`now`), the storage save
  (`save`, the settled result of the promise returned by `history.save()`), the re-fetch
  (`Document.findOne`), the two serialisations of a document (`toObject`, `toJSON`), and the
  order in which asynchronous metadata completions arrive (a schedule of `Event`s interpreted
  by `setMetadata`, which includes the model of `async.each`).
* What a hook does to the outside world is collected in `Effects`: the documents handed to
  `history.save()`, every invocation of `next`, and promise rejections nobody handles.
-/

namespace MongooseHistory

/-! ## Values -/

/-- JavaScript values: the JSON-like fragment, with dates. -/
inductive JsVal where
  | undefined
  | null
  | bool (b : Bool)
  | num (n : Int)
  | str (s : String)
  | date (ms : Int)
  | arr (items : List JsVal)
  | obj (fields : List (String × JsVal))

/-- An object: its own enumerable properties, in enumeration order. -/
abbrev Obj := List (String × JsVal)

/-- Truthiness, as tested by `if (v)`, `!v`, `a || b` and `c ? x : y`. -/
def truthy : JsVal → Bool
  | .undefined => false
  | .null => false
  | .bool b => b
  | .num n => n != 0
  | .str s => s != ""
  | .date _ => true
  | .arr _ => true
  | .obj _ => true

/-- The test `v === undefined || v === null`. -/
def isNullish : JsVal → Bool
  | .undefined => true
  | .null => true
  | _ => false

/-- The read `o[k]` on an object: the property value, `undefined` when `k` is absent. -/
def objGet : Obj → String → JsVal
  | [], _ => .undefined
  | (k', v) :: rest, k => if k' = k then v else objGet rest k

/-- Whether `k` is an own property of the object. -/
def objHas : Obj → String → Bool
  | [], _ => false
  | (k', _) :: rest, k => if k' = k then true else objHas rest k

/-- The write `o[k] = v`: an existing property keeps its place, a new one is added last. -/
def objSet : Obj → String → JsVal → Obj
  | [], k, v => [(k, v)]
  | (k', v') :: rest, k, v => if k' = k then (k, v) :: rest else (k', v') :: objSet rest k v

/-- The keys visited by `for (var k in o)`. -/
def objKeys (o : Obj) : List String := o.map Prod.fst

/-- The index-keyed properties of an array or of a string. -/
def indexed (xs : List JsVal) : Obj :=
  xs.enum.map (fun ix => (toString ix.1, ix.2))

/-- The characters of a string, each as a one-character string value. -/
def chars (s : String) : List JsVal :=
  s.toList.map (fun c => JsVal.str (String.singleton c))

/-- The `TypeError` thrown when a property of `undefined` or `null` is read or destructured. -/
def typeError : JsVal := .str "TypeError"

/-- The own enumerable properties of a value that is not `undefined` or `null`. -/
def ownProps : JsVal → Obj
  | .obj fs => fs
  | .arr xs => indexed xs
  | .str s => indexed (chars s)
  | _ => []

/-- The read `v[k]` on a value that is not `undefined` or `null`. -/
def readProp (v : JsVal) (k : String) : JsVal :=
  match v with
  | .arr xs => if k = "length" then .num xs.length else objGet (indexed xs) k
  | .str s => if k = "length" then .num s.length else objGet (indexed (chars s)) k
  | other => objGet (ownProps other) k

/-- The read `v[k]`: throws a `TypeError` when `v` is `undefined` or `null`. -/
def getProp (v : JsVal) (k : String) : Except JsVal JsVal :=
  if isNullish v then .error typeError else .ok (readProp v k)

/-! ## Equality engine -/

mutual
/-- Modelled from the spec: `util.isDeepStrictEqual` is Node's built-in and is not part of the
source file; this is the deep structural equality of spec section 4.1 on `JsVal`: primitives by
value, arrays element by element, objects by the same keys with deep-equal values (key order
is irrelevant). -/
def isDeepStrictEqual : JsVal → JsVal → Bool
  | .undefined, b => match b with
    | .undefined => true
    | _ => false
  | .null, b => match b with
    | .null => true
    | _ => false
  | .bool x, b => match b with
    | .bool y => x == y
    | _ => false
  | .num x, b => match b with
    | .num y => x == y
    | _ => false
  | .str x, b => match b with
    | .str y => x == y
    | _ => false
  | .date x, b => match b with
    | .date y => x == y
    | _ => false
  | .arr xs, b => match b with
    | .arr ys => deepEqualItems xs ys
    | _ => false
  | .obj fs, b => match b with
    | .obj gs => fs.length == gs.length && deepEqualFields fs gs
    | _ => false
/-- Element-by-element comparison of two arrays. -/
def deepEqualItems : List JsVal → List JsVal → Bool
  | [], ys => ys.isEmpty
  | x :: xs, ys => match ys with
    | [] => false
    | y :: rest => isDeepStrictEqual x y && deepEqualItems xs rest
/-- Every property of the first object is a property of the second with a deep-equal value. -/
def deepEqualFields : List (String × JsVal) → List (String × JsVal) → Bool
  | [], _ => true
  | (k, v) :: fs, gs =>
    gs.any (fun kw => k == kw.1 && isDeepStrictEqual v kw.2) && deepEqualFields fs gs
end

/-! ## Options and collaborators -/

/-- A caller-supplied metadata function: its declared parameter count (`f.length`), the value
it returns when called as `f(original, d)`, and what it passes to the completion callback when
called as `f(original, d, completion)`: `some (err, data)`, or `none` when it never calls it. -/
structure JsFunction where
  length : Nat
  call : JsVal → JsVal → JsVal
  completion : JsVal → JsVal → Option (JsVal × JsVal)

/-- The `value` of a metadata descriptor: a function, or anything else (used as a field name). -/
inductive MetaValue where
  | func (f : JsFunction)
  | field (name : String)

/-- A metadata descriptor `{key, value}`. -/
structure Metadata where
  key : String
  value : MetaValue

/-- The plugin options read at lines 9-11 (`customCollectionName` only names the collection). -/
structure Options where
  customDiffAlgo : Option (String → JsVal → JsVal → JsVal)
  diffOnly : Bool
  metadata : Option (List Metadata)

/-- What the pre-save and pre-remove hooks read from the document `this`. -/
structure Document where
  isNew : Bool
  _original : Option Obj
  findOne : Except JsVal (Option Obj)
  toObject : Obj
  toJSON : Obj
  collectionName : String

/-- What `processUpdate` and `processRemove` read from the query `this`. -/
structure Query where
  _update : Obj
  toObject : JsVal
  collectionName : String

/-- The storage collaborator: the settled result of `history.save()` for a history document. -/
abbrev Storage := Obj → Except JsVal Unit

/-- The observable effects of a hook. -/
structure Effects where
  saves : List Obj
  nextCalls : List JsVal
  unhandled : List JsVal

/-- No effect yet. -/
def noEffects : Effects := ⟨[], [], []⟩

/-! ## History record builder (lines 131-140) -/

/-- The function `createHistoryDoc(d, operation)`; `now` is the value of `new Date()`. -/
def createHistoryDoc (now : Int) (d : JsVal) (operation : String) : Except JsVal Obj :=
  if isNullish d then .error typeError
  else
    let doc : Obj := (ownProps d).filter (fun kv => kv.1 != "__v")
    let historyDoc : Obj := []
    let historyDoc := objSet historyDoc "t" (.date now)
    let historyDoc := objSet historyDoc "o" (.str operation)
    let historyDoc := objSet historyDoc "d" (.obj doc)
    .ok historyDoc

/-! ## Diff loop of the pre-save hook (lines 78-91) -/

/-- The state of the loop: the `diff` object and the invocations of `customDiffAlgo` so far,
each with its three arguments. -/
structure DiffState where
  diff : Obj
  calls : List (String × JsVal × JsVal)

/-- One iteration of `for (var k in d)` (lines 81-90). -/
def diffStep (customDiffAlgo : Option (String → JsVal → JsVal → JsVal)) (original : JsVal)
    (d : Obj) (st : DiffState) (k : String) : Except JsVal DiffState :=
  match customDiffAlgo with
  | some algo =>
    match getProp original k with
    | .error e => .error e
    | .ok before =>
      let customDiff := algo k (objGet d k) before
      let st := { st with calls := st.calls ++ [(k, objGet d k, before)] }
      if truthy customDiff then
        .ok { st with diff := objSet st.diff k (readProp customDiff "diff") }
      else .ok st
  | none =>
    match getProp original k with
    | .error e => .error e
    | .ok before =>
      if !isDeepStrictEqual (objGet d k) before then
        .ok { st with diff := objSet st.diff k (objGet d k) }
      else .ok st

/-- The loop over a list of keys. -/
def diffLoop (customDiffAlgo : Option (String → JsVal → JsVal → JsVal)) (original : JsVal)
    (d : Obj) : List String → DiffState → Except JsVal DiffState
  | [], st => .ok st
  | k :: ks, st =>
    match diffStep customDiffAlgo original d st k with
    | .error e => .error e
    | .ok st1 => diffLoop customDiffAlgo original d ks st1

/-- Lines 78-91: `diff = {}`, `diff['_id'] = d['_id']`, then the loop over the keys of `d`. -/
def computeDiff (customDiffAlgo : Option (String → JsVal → JsVal → JsVal)) (original : JsVal)
    (d : Obj) : Except JsVal DiffState :=
  diffLoop customDiffAlgo original d (objKeys d) ⟨objSet [] "_id" (objGet d "_id"), []⟩

/-! ## Pre-save hook, up to the call of `saveHistoryModel` (lines 55-100) -/

/-- The arguments of a call `saveHistoryModel(original, d, historyDoc, collectionName, next)`. -/
structure SaveArgs where
  original : JsVal
  d : JsVal
  historyDoc : Obj
  collectionName : String

/-- Lines 61-74: the value of `original` on the diff path. -/
def resolveOriginal (doc : Document) : Except JsVal JsVal :=
  let fetched : Except JsVal JsVal :=
    match doc._original with
    | some o => .ok (.obj o)
    | none =>
      match doc.findOne with
      | .error e => .error e
      | .ok none => .ok .null
      | .ok (some found) => .ok (.obj found)
  match fetched with
  | .error e => .error e
  | .ok original => if isNullish original then .ok (.obj doc.toJSON) else .ok original

/-- Lines 56-98: everything the pre-save hook computes before it calls `saveHistoryModel`.
The writes to `this._original` (lines 62-64, 76) are read by nothing later in the hook and
are not part of the result. -/
def preSaveArgs (opts : Options) (now : Int) (doc : Document) : Except JsVal SaveArgs :=
  if opts.diffOnly && !doc.isNew then
    match resolveOriginal doc with
    | .error e => .error e
    | .ok original =>
      let d := doc.toObject
      match computeDiff opts.customDiffAlgo original d with
      | .error e => .error e
      | .ok st =>
        match createHistoryDoc now (.obj st.diff) "u" with
        | .error e => .error e
        | .ok historyDoc => .ok ⟨original, .obj d, historyDoc, doc.collectionName⟩
  else
    let d := doc.toObject
    let operation := if doc.isNew then "i" else "u"
    match createHistoryDoc now (.obj d) operation with
    | .error e => .error e
    | .ok historyDoc => .ok ⟨.undefined, .obj d, historyDoc, doc.collectionName⟩

/-! ## Metadata enricher (lines 33-52) -/

/-- What the code of `setMetadata` does to its surroundings, in order: a write
`historyDoc[key] = value`, or an invocation `cb(err)` of the per-descriptor callback
(`cb()` passes `undefined`). -/
inductive Action where
  | assign (key : String) (value : JsVal)
  | cb (err : JsVal)

/-- Lines 38-42: the body of the completion callback handed to an asynchronous metadata
function, when it is invoked with `(err, data)`. -/
def completionBody (m : Metadata) (err data : JsVal) : List Action :=
  (if truthy err then [Action.cb err] else []) ++ [Action.assign m.key data, Action.cb .undefined]

/-- What invoking the iteratee on a descriptor does: either it runs to its `cb()` at once, or
it has called an asynchronous function, whose completion (if any) arrives later. -/
inductive Iteration where
  | sync (actions : List Action)
  | async (result : Option (JsVal × JsVal))

/-- Lines 35-50: the iteratee `(m, cb) => ...` of `setMetadata(original, d, historyDoc, _)`. -/
def iteratee (original d : JsVal) (m : Metadata) : Iteration :=
  match m.value with
  | .func f =>
    if f.length = 3 then
      .async (f.completion original d)
    else
      .sync [Action.assign m.key (f.call original d), Action.cb .undefined]
  | .field name =>
    .sync [Action.assign m.key (if truthy d then readProp d name else .null),
           Action.cb .undefined]

/-! ## History persistence (lines 142-153) and the model of `async.each` -/

/-- Lines 146-147 and 150-151: `history.save().then(() => next())`.  A fulfilled save calls
`next()`; a rejected one calls nothing, and the rejection of the promise is handled nowhere. -/
def saveThenNext (save : Storage) (historyDoc : Obj) (fx : Effects) : Effects :=
  match save historyDoc with
  | .ok _ => { fx with saves := fx.saves ++ [historyDoc],
                       nextCalls := fx.nextCalls ++ [JsVal.undefined] }
  | .error e => { fx with saves := fx.saves ++ [historyDoc],
                          unhandled := fx.unhandled ++ [e] }

/-- The state of one run of `async.each(metadata, iteratee, callback)`:
the history document being enriched, how many descriptors the iteratee has been invoked on,
the asynchronous descriptors whose completion has not arrived, the descriptors whose `cb` has
not been invoked yet, whether the final callback has been invoked, every `cb` invocation so
far, the descriptors on which a second `cb` invocation raised, and the effects so far. -/
structure EachState where
  historyDoc : Obj
  started : Nat
  pending : List Nat
  waiting : List Nat
  done : Bool
  cbLog : List (Nat × JsVal)
  threw : List Nat
  fx : Effects

/-- Lines 144-148: the final callback `(err) => ...` of `setMetadata`, which `async.each`
invokes at most once. -/
def finalCallback (save : Storage) (err : JsVal) (st : EachState) : EachState :=
  if st.done then st
  else if truthy err then
    { st with done := true, fx := { st.fx with nextCalls := st.fx.nextCalls ++ [err] } }
  else
    { st with done := true, fx := saveThenNext save st.historyDoc st.fx }

/-- The library callback behind `cb` for descriptor `i`: an error goes to the final callback;
otherwise the final callback is invoked with no error once every descriptor has called back. -/
def iteratorCallback (save : Storage) (i : Nat) (err : JsVal) (st : EachState) : EachState :=
  let st := { st with waiting := st.waiting.erase i }
  if truthy err then finalCallback save err st
  else if st.waiting.isEmpty then finalCallback save .null st
  else st

/-- Runs the actions of descriptor `i`.  `cb` may be invoked once per descriptor: a second
invocation raises ("Callback was already called"), which abandons the remaining actions. -/
def runActions (save : Storage) (i : Nat) : List Action → EachState → EachState
  | [], st => st
  | .assign k v :: rest, st =>
    runActions save i rest { st with historyDoc := objSet st.historyDoc k v }
  | .cb err :: rest, st =>
    let st := { st with cbLog := st.cbLog ++ [(i, err)] }
    if i ∈ st.waiting then runActions save i rest (iteratorCallback save i err st)
    else { st with threw := st.threw ++ [i] }

/-- The two things that happen during a run: the iteratee is invoked on the next descriptor,
or the completion of asynchronous descriptor `i` arrives. -/
inductive Event where
  | start
  | complete (i : Nat)

/-- One event of a run. -/
def step (save : Storage) (original d : JsVal) (ms : List Metadata) (st : EachState) :
    Event → EachState
  | .start =>
    match ms.get? st.started with
    | none => st
    | some m =>
      match iteratee original d m with
      | .sync actions => runActions save st.started actions { st with started := st.started + 1 }
      | .async _ => { st with started := st.started + 1, pending := st.pending ++ [st.started] }
  | .complete i =>
    if i ∈ st.pending then
      match ms.get? i with
      | none => st
      | some m =>
        match iteratee original d m with
        | .async (some (err, data)) =>
          runActions save i (completionBody m err data) { st with pending := st.pending.erase i }
        | _ => st
    else st

/-- The state in which `async.each` begins: an empty collection invokes the final callback at
once. -/
def eachInit (save : Storage) (ms : List Metadata) (historyDoc : Obj) : EachState :=
  let st : EachState := ⟨historyDoc, 0, [], List.range ms.length, false, [], [], noEffects⟩
  if ms.isEmpty then finalCallback save .null st else st

/-- The function `setMetadata(original, d, historyDoc, callback)` with the callback of line 144,
run under a schedule of events. -/
def setMetadata (save : Storage) (original d : JsVal) (ms : List Metadata) (historyDoc : Obj)
    (sched : List Event) : EachState :=
  sched.foldl (step save original d ms) (eachInit save ms historyDoc)

/-- The function `saveHistoryModel(original, d, historyDoc, collectionName, next)`. -/
def saveHistoryModel (opts : Options) (save : Storage) (sched : List Event) (a : SaveArgs) :
    Effects :=
  match opts.metadata with
  | some ms => (setMetadata save a.original a.d ms a.historyDoc sched).fx
  | none => saveThenNext save a.historyDoc noEffects

/-- A schedule is complete for a call of `saveHistoryModel` when, at its end, the iteratee has
been invoked on every descriptor and no asynchronous completion is outstanding. -/
def scheduleComplete (opts : Options) (save : Storage) (sched : List Event) (a : SaveArgs) :
    Bool :=
  match opts.metadata with
  | some ms =>
    let st := setMetadata save a.original a.d ms a.historyDoc sched
    st.started == ms.length && st.pending.isEmpty
  | none => true

/-! ## The hooks -/

/-- The hook `schema.pre('save', ...)` (lines 55-101).  An error is a rejection of the hook's
own promise: `next` is not called. -/
def preSave (opts : Options) (save : Storage) (now : Int) (sched : List Event) (doc : Document) :
    Except JsVal Effects :=
  match preSaveArgs opts now doc with
  | .error e => .error e
  | .ok a => .ok (saveHistoryModel opts save sched a)

/-- Lines 155-157: the arguments `processUpdate` hands to `saveHistoryModel`. -/
def processUpdateArgs (now : Int) (q : Query) : Except JsVal SaveArgs :=
  let d := if truthy (objGet q._update "$set") then objGet q._update "$set" else JsVal.obj q._update
  match createHistoryDoc now d "u" with
  | .error e => .error e
  | .ok historyDoc => .ok ⟨q.toObject, d, historyDoc, q.collectionName⟩

/-- The function `processUpdate(next)`, behind the `update`, `updateOne` and `findOneAndUpdate`
hooks (lines 104-116, 155-160). -/
def processUpdate (opts : Options) (save : Storage) (now : Int) (sched : List Event) (q : Query) :
    Except JsVal Effects :=
  match processUpdateArgs now q with
  | .error e => .error e
  | .ok a => .ok (saveHistoryModel opts save sched a)

/-- Lines 120-121: the arguments the pre-remove hook hands to `saveHistoryModel`. -/
def preRemoveArgs (now : Int) (doc : Document) : Except JsVal SaveArgs :=
  let d := doc.toObject
  match createHistoryDoc now (.obj d) "r" with
  | .error e => .error e
  | .ok historyDoc => .ok ⟨.obj doc.toObject, .obj d, historyDoc, doc.collectionName⟩

/-- The hook `schema.pre('remove', ...)` (lines 119-124). -/
def preRemove (opts : Options) (save : Storage) (now : Int) (sched : List Event)
    (doc : Document) : Except JsVal Effects :=
  match preRemoveArgs now doc with
  | .error e => .error e
  | .ok a => .ok (saveHistoryModel opts save sched a)

/-- Lines 163-164: the arguments `processRemove(doc, next)` hands to `saveHistoryModel`; `found`
is `doc.toObject()`. -/
def processRemoveArgs (now : Int) (q : Query) (found : Obj) : Except JsVal SaveArgs :=
  let d := found
  match createHistoryDoc now (.obj d) "r" with
  | .error e => .error e
  | .ok historyDoc => .ok ⟨q.toObject, .obj d, historyDoc, q.collectionName⟩

/-- The function `processRemove(doc, next)`, behind the `findOneAndRemove` hook
(lines 127-129, 162-167). -/
def processRemove (opts : Options) (save : Storage) (now : Int) (sched : List Event) (q : Query)
    (found : Obj) : Except JsVal Effects :=
  match processRemoveArgs now q found with
  | .error e => .error e
  | .ok a => .ok (saveHistoryModel opts save sched a)

/-! ## Definitions used in the statements and proofs -/

/-- What one iteration of the loop decides for key `k` when `original` is the object `before`:
the value written to `diff[k]`, if any. -/
def fieldUpdate (customDiffAlgo : Option (String → JsVal → JsVal → JsVal)) (before d : Obj)
    (k : String) : Option JsVal :=
  match customDiffAlgo with
  | some algo =>
    if truthy (algo k (objGet d k) (objGet before k)) then
      some (readProp (algo k (objGet d k) (objGet before k)) "diff")
    else none
  | none =>
    if isDeepStrictEqual (objGet d k) (objGet before k) then none else some (objGet d k)

/-- Applies the decided updates for a list of keys, in order. -/
def applyUpdates (upd : String → Option JsVal) : List String → Obj → Obj
  | [], o => o
  | k :: ks, o =>
    applyUpdates upd ks (match upd k with
      | some v => objSet o k v
      | none => o)

/-- The invocations of `customDiffAlgo` the loop makes over a list of keys. -/
def algoCalls (customDiffAlgo : Option (String → JsVal → JsVal → JsVal)) (before d : Obj)
    (ks : List String) : List (String × JsVal × JsVal) :=
  match customDiffAlgo with
  | some _ => ks.map (fun k => (k, objGet d k, objGet before k))
  | none => []

/-- The outcome of a failed enrichment: nothing was handed to storage and `next` was invoked
once, with an error. -/
def ErrOutcome (fx : Effects) : Prop :=
  fx.saves = [] ∧ ∃ e, fx.nextCalls = [e] ∧ truthy e = true

/-- Before the final callback nothing has happened; after it, either the enrichment failed or
every descriptor has called back. -/
def Safe (st : EachState) : Prop :=
  (st.done = false → st.fx = noEffects) ∧
  (st.done = true → ErrOutcome st.fx ∨ st.waiting = [])

/-- The final callback has been invoked with an error. -/
def Failed (st : EachState) : Prop :=
  st.done = true ∧ ErrOutcome st.fx

/-- The invariant of a run: it is safe, the outstanding completions are distinct descriptors
that have been started and have not called back, and a descriptor whose completion arrived
with an error has failed the run. -/
def RunInv (original d : JsVal) (ms : List Metadata) (st : EachState) : Prop :=
  Safe st ∧ st.pending.Nodup ∧ (∀ j ∈ st.pending, j ∈ st.waiting ∧ j < st.started) ∧
  (∀ j, st.started ≤ j → j < ms.length → j ∈ st.waiting) ∧
  (∀ i m e v, ms.get? i = some m → iteratee original d m = .async (some (e, v)) →
    truthy e = true → i < st.started → i ∉ st.pending → Failed st)

/-- The invariant of a run in which the save succeeds, no completion signals an error and no
descriptor is keyed `o` or `d`: the descriptors that have not called back are the outstanding
ones and the ones not started; the record keeps its operation `o0` and payload `d0`; and the
final callback has been invoked exactly when every descriptor has called back, handing one
record to storage and invoking `next()` once. -/
def LiveInv (ms : List Metadata) (o0 d0 : JsVal) (st : EachState) : Prop :=
  st.waiting.Nodup ∧ st.pending.Nodup ∧
  (∀ j ∈ st.pending, j < st.started) ∧
  (∀ j, j ∈ st.waiting ↔ (j ∈ st.pending ∨ (st.started ≤ j ∧ j < ms.length))) ∧
  objGet st.historyDoc "o" = o0 ∧ objGet st.historyDoc "d" = d0 ∧
  (st.done = false → st.fx = noEffects ∧ st.waiting ≠ []) ∧
  (st.done = true → st.waiting = [] ∧
    ∃ r, st.fx = ⟨[r], [.undefined], []⟩ ∧ objGet r "o" = o0 ∧ objGet r "d" = d0)

/-! ## Example data -/

/-- The prior snapshot of the specification's diff scenario. -/
def exBefore : Obj := [("_id", .num 1), ("name", .str "a"), ("qty", .num 5)]

/-- The new snapshot of the specification's diff scenario. -/
def exAfter : Obj := [("_id", .num 1), ("name", .str "b"), ("qty", .num 5)]

/-- A custom diff function that declines for every field. -/
def declineAll : String → JsVal → JsVal → JsVal := fun _ _ _ => .null

/-- A custom diff function that reports the same replacement value for every field. -/
def overrideAll : String → JsVal → JsVal → JsVal := fun _ _ _ => .obj [("diff", .str "X")]

/-- An existing document with no captured original, whose re-fetch finds nothing. -/
def exOrphan : Document := ⟨false, none, .ok none, exAfter, exAfter, "things"⟩

/-- An asynchronous metadata function whose completion signals the error `"boom"`. -/
def failingAsync : JsFunction := ⟨3, fun _ _ => .undefined, fun _ _ => some (.str "boom", .num 7)⟩

/-- A constant-field descriptor followed by a failing asynchronous one. -/
def exFailingMetadata : List Metadata := [⟨"actor", .field "name"⟩, ⟨"x", .func failingAsync⟩]

/-- A new document with a version marker. -/
def exNew : Document :=
  ⟨true, none, .ok none, [("_id", .num 1), ("name", .str "b"), ("__v", .num 0)],
    [("_id", .num 1), ("name", .str "b"), ("__v", .num 0)], "things"⟩

/-- An asynchronous metadata function whose completion delivers `42` without error. -/
def lookupActor : JsFunction := ⟨3, fun _ _ => .undefined, fun _ _ => some (.null, .num 42)⟩

/-- A constant-field descriptor and a successful asynchronous one. -/
def exMetadata : List Metadata := [⟨"title", .field "name"⟩, ⟨"actor", .func lookupActor⟩]

/-- A synchronous metadata function of two parameters, returning the `name` of `after`. -/
def nameOfAfter : JsFunction := ⟨2, fun _ d => readProp d "name", fun _ _ => none⟩

/-- A custom diff function that treats `qty` as changed to `0` and declines everywhere else. -/
def overrideQty : String → JsVal → JsVal → JsVal :=
  fun k _ _ => if k = "qty" then .obj [("diff", .num 0)] else .null

/-- An existing document loaded with `exBefore` and now holding `exAfter` with a new version
marker. -/
def exLoaded : Document :=
  ⟨false, some (exBefore ++ [("__v", .num 0)]), .ok none, exAfter ++ [("__v", .num 1)],
    exAfter ++ [("__v", .num 1)], "things"⟩

/-- The removed document of the specification's remove scenario. -/
def exRemoved : Document :=
  ⟨false, none, .ok none, [("_id", .num 7), ("name", .str "x")],
    [("_id", .num 7), ("name", .str "x")], "things"⟩

/-- An existing document with no captured original, whose re-fetch finds nothing, and whose
`toJSON()` differs from its `toObject()` in the field `name`. -/
def exDrift : Document :=
  ⟨false, none, .ok none, [("_id", .num 1), ("name", .str "b"), ("qty", .num 5)],
    [("_id", .num 1), ("name", .str "json"), ("qty", .num 5)], "things"⟩

/-- A synchronous metadata function of two parameters that returns its first argument. -/
def echoOriginal : JsFunction := ⟨2, fun original _ => original, fun _ _ => none⟩

/-- An asynchronous metadata function that completes, without error, with its first
argument. -/
def echoOriginalLater : JsFunction :=
  ⟨3, fun _ _ => .undefined, fun original _ => some (.null, original)⟩

/-! ## Objects: reads after writes -/

theorem objHas_iff_mem_keys (o : Obj) (k : String) : objHas o k = true ↔ k ∈ objKeys o := by
  induction o with
  | nil => simp [objHas, objKeys]
  | cons kv rest ih =>
    obtain ⟨k', v⟩ := kv
    by_cases h : k' = k
    · simp [objHas, objKeys, h]
    · have h' : ¬ k = k' := fun e => h e.symm
      simpa [objHas, objKeys, h, h'] using ih

theorem objGet_of_not_has (o : Obj) (k : String) (h : objHas o k = false) :
    objGet o k = .undefined := by
  induction o with
  | nil => rfl
  | cons kv rest ih =>
    obtain ⟨k', v⟩ := kv
    by_cases hk : k' = k
    · simp [objHas, hk] at h
    · simp only [objHas, hk, if_false] at h
      simp [objGet, hk, ih h]

theorem objHas_set (o : Obj) (k : String) (v : JsVal) (F : String) :
    objHas (objSet o k v) F = (decide (k = F) || objHas o F) := by
  induction o with
  | nil => by_cases h : k = F <;> simp [objSet, objHas, h]
  | cons kv rest ih =>
    obtain ⟨k', v'⟩ := kv
    simp only [objSet]
    split
    · rename_i h
      subst h
      by_cases hF : k' = F <;> simp [objHas, hF]
    · rename_i h
      simp only [objHas, ih]
      by_cases hF : k' = F
      · simp [hF]
      · simp [hF]

theorem objGet_set_same (o : Obj) (k : String) (v : JsVal) : objGet (objSet o k v) k = v := by
  induction o with
  | nil => simp [objSet, objGet]
  | cons kv rest ih =>
    obtain ⟨k', v'⟩ := kv
    by_cases h : k' = k
    · simp [objSet, objGet, h]
    · simp [objSet, objGet, h, ih]

theorem objGet_set_other (o : Obj) (k : String) (v : JsVal) (F : String) (h : k ≠ F) :
    objGet (objSet o k v) F = objGet o F := by
  induction o with
  | nil => simp [objSet, objGet, h]
  | cons kv rest ih =>
    obtain ⟨k', v'⟩ := kv
    simp only [objSet]
    split
    · rename_i hk
      subst hk
      simp [objGet, h]
    · simp only [objGet, ih]

theorem objGet_filter_ne (o : Obj) (x k : String) (h : k ≠ x) :
    objGet (o.filter (fun kv => kv.1 != x)) k = objGet o k := by
  induction o with
  | nil => rfl
  | cons kv rest ih =>
    obtain ⟨k', v⟩ := kv
    by_cases hx : k' = x
    · have hk : ¬ k' = k := fun e => h (e.symm.trans hx)
      rw [List.filter_cons_of_neg (by simp [hx]), ih]
      simp only [objGet, hk, if_false]
    · rw [List.filter_cons_of_pos (by simp [hx])]
      simp only [objGet, ih]

theorem objHas_filter_ne (o : Obj) (x k : String) (h : k ≠ x) :
    objHas (o.filter (fun kv => kv.1 != x)) k = objHas o k := by
  induction o with
  | nil => rfl
  | cons kv rest ih =>
    obtain ⟨k', v⟩ := kv
    by_cases hx : k' = x
    · have hk : ¬ k' = k := fun e => h (e.symm.trans hx)
      rw [List.filter_cons_of_neg (by simp [hx]), ih]
      simp only [objHas, hk, if_false]
    · rw [List.filter_cons_of_pos (by simp [hx])]
      simp only [objHas, ih]

theorem objHas_filter_self (o : Obj) (x : String) :
    objHas (o.filter (fun kv => kv.1 != x)) x = false := by
  induction o with
  | nil => rfl
  | cons kv rest ih =>
    obtain ⟨k', v⟩ := kv
    by_cases hx : k' = x
    · rw [List.filter_cons_of_neg (by simp [hx]), ih]
    · rw [List.filter_cons_of_pos (by simp [hx])]
      simp only [objHas, hx, if_false, ih]

/-! ## The diff loop as a sequence of field updates -/

theorem objHas_applyUpdates (upd : String → Option JsVal) (ks : List String) (o : Obj)
    (F : String) :
    objHas (applyUpdates upd ks o) F = (objHas o F || (decide (F ∈ ks) && (upd F).isSome)) := by
  induction ks generalizing o with
  | nil => simp [applyUpdates]
  | cons k ks ih =>
    simp only [applyUpdates, ih]
    by_cases hk : k = F
    · subst hk
      cases hu : upd k <;> simp [objHas_set, hu]
    · have hk' : ¬ F = k := fun e => hk e.symm
      cases hu : upd k <;> simp [objHas_set, hk, hk']

theorem objGet_applyUpdates_keep (upd : String → Option JsVal) (ks : List String) (o : Obj)
    (F : String) (h : F ∈ ks → upd F = none) :
    objGet (applyUpdates upd ks o) F = objGet o F := by
  induction ks generalizing o with
  | nil => rfl
  | cons k ks ih =>
    simp only [applyUpdates]
    rw [ih _ (fun hm => h (List.mem_cons_of_mem k hm))]
    by_cases hk : k = F
    · subst hk
      rw [h (List.mem_cons_self k ks)]
    · cases upd k with
      | none => rfl
      | some w => exact objGet_set_other o k w F hk

theorem objGet_applyUpdates_some (upd : String → Option JsVal) (ks : List String) (o : Obj)
    (F : String) (v : JsVal) (hmem : F ∈ ks) (hu : upd F = some v) :
    objGet (applyUpdates upd ks o) F = v := by
  induction ks generalizing o with
  | nil => simp at hmem
  | cons k ks ih =>
    simp only [applyUpdates]
    by_cases hin : F ∈ ks
    · exact ih _ hin
    · have hk : F = k := by
        rcases List.mem_cons.mp hmem with h | h
        · exact h
        · exact absurd h hin
      subst hk
      rw [hu, objGet_applyUpdates_keep upd ks _ F (fun hm => absurd hm hin)]
      exact objGet_set_same o F v

theorem getProp_obj (fs : Obj) (k : String) : getProp (.obj fs) k = .ok (objGet fs k) := rfl

theorem diffStep_obj (c : Option (String → JsVal → JsVal → JsVal)) (before d : Obj)
    (st : DiffState) (k : String) :
    diffStep c (.obj before) d st k =
      .ok ⟨(match fieldUpdate c before d k with
            | some v => objSet st.diff k v
            | none => st.diff),
           st.calls ++ algoCalls c before d [k]⟩ := by
  cases c with
  | none =>
    simp only [diffStep, getProp_obj, fieldUpdate, algoCalls]
    cases h : isDeepStrictEqual (objGet d k) (objGet before k) <;> simp
  | some algo =>
    simp only [diffStep, getProp_obj, fieldUpdate, algoCalls]
    cases h : truthy (algo k (objGet d k) (objGet before k)) <;> simp

theorem diffLoop_obj (c : Option (String → JsVal → JsVal → JsVal)) (before d : Obj)
    (ks : List String) (st : DiffState) :
    diffLoop c (.obj before) d ks st =
      .ok ⟨applyUpdates (fieldUpdate c before d) ks st.diff,
           st.calls ++ algoCalls c before d ks⟩ := by
  induction ks generalizing st with
  | nil => cases c <;> simp [diffLoop, applyUpdates, algoCalls]
  | cons k ks ih =>
    simp only [diffLoop, diffStep_obj, ih, applyUpdates]
    cases c <;> simp [algoCalls]

theorem computeDiff_obj (c : Option (String → JsVal → JsVal → JsVal)) (before d : Obj) :
    computeDiff c (.obj before) d =
      .ok ⟨applyUpdates (fieldUpdate c before d) (objKeys d) [("_id", objGet d "_id")],
           algoCalls c before d (objKeys d)⟩ := by
  simp [computeDiff, diffLoop_obj, objSet]

/-! ## Diff engine: claims C1, C2, C5 -/

/-- Claim C1, as stated, fails: a field of `before` that `after` no longer has is not
deep-equal between the two snapshots, yet the loop, which visits the keys of `after` only,
leaves it out of the diff. -/
theorem diff_omits_field_absent_from_after :
    ∃ st, computeDiff none (.obj [("_id", .num 1), ("name", .str "a")]) [("_id", .num 1)] = .ok st ∧
      isDeepStrictEqual (objGet [("_id", .num 1)] "name")
        (objGet [("_id", .num 1), ("name", .str "a")] "name") = false ∧
      objHas st.diff "name" = false :=
  ⟨_, rfl, rfl, rfl⟩

/-- Claim C1 (amended): with no custom diff function the diff always has `_id` with the value
it has in `after`, and it has a field `F` other than `_id` exactly when `F` is a field of
`after` whose values in `after` and `before` are not deep-equal; the field then carries the
value it has in `after`. -/
theorem diff_has_changed_fields_of_after (before after : Obj) (F : String) (hF : F ≠ "_id") :
    ∃ st, computeDiff none (.obj before) after = .ok st ∧
      objHas st.diff "_id" = true ∧ objGet st.diff "_id" = objGet after "_id" ∧
      (objHas st.diff F = true ↔
        (objHas after F = true ∧
          isDeepStrictEqual (objGet after F) (objGet before F) = false)) ∧
      (objHas st.diff F = true → objGet st.diff F = objGet after F) := by
  refine ⟨_, computeDiff_obj none before after, ?_, ?_, ?_, ?_⟩
  · simp [objHas_applyUpdates, objHas]
  · by_cases h : "_id" ∈ objKeys after ∧
        isDeepStrictEqual (objGet after "_id") (objGet before "_id") = false
    · exact objGet_applyUpdates_some _ _ _ _ _ h.1 (by simp [fieldUpdate, h.2])
    · rw [objGet_applyUpdates_keep]
      · simp [objGet]
      · intro hm
        have : isDeepStrictEqual (objGet after "_id") (objGet before "_id") = true := by
          by_contra hne
          exact h ⟨hm, by simpa using hne⟩
        simp [fieldUpdate, this]
  · have hF' : ¬ "_id" = F := fun e => hF e.symm
    rw [objHas_applyUpdates]
    have hk := objHas_iff_mem_keys after F
    cases hd : isDeepStrictEqual (objGet after F) (objGet before F) <;>
      simp [objHas, hF', fieldUpdate, hd, hk]
  · intro hhas
    have hF' : ¬ "_id" = F := fun e => hF e.symm
    rw [objHas_applyUpdates] at hhas
    simp only [objHas, hF', if_false, Bool.false_or, Bool.and_eq_true, decide_eq_true_eq] at hhas
    obtain ⟨hm, hs⟩ := hhas
    cases hu : fieldUpdate none before after F with
    | none => simp [hu] at hs
    | some v =>
      rw [objGet_applyUpdates_some _ _ _ _ _ hm hu]
      simp only [fieldUpdate] at hu
      split at hu
      · exact absurd hu (by simp)
      · exact (Option.some.inj hu).symm

/-- Claim C1, the scenario of the specification: the diff of `exAfter` against `exBefore` is
`_id` and the changed `name`; the unchanged `qty` is left out. -/
theorem diff_has_changed_fields_of_after_witness :
    "name" ≠ "_id" ∧
    computeDiff none (.obj exBefore) exAfter =
      .ok ⟨[("_id", .num 1), ("name", .str "b")], []⟩ ∧
    ∃ st, computeDiff none (.obj exBefore) exAfter = .ok st ∧
      objHas st.diff "_id" = true ∧ objGet st.diff "_id" = objGet exAfter "_id" ∧
      (objHas st.diff "name" = true ↔
        (objHas exAfter "name" = true ∧
          isDeepStrictEqual (objGet exAfter "name") (objGet exBefore "name") = false)) ∧
      (objHas st.diff "name" = true → objGet st.diff "name" = objGet exAfter "name") :=
  ⟨by decide, rfl, diff_has_changed_fields_of_after exBefore exAfter "name" (by decide)⟩

/-- Claim C2, as stated, fails: with a custom diff function that declines, a changed field is
left out of the diff; the deep-equality comparison is the `else` branch of the test for a
custom function and does not run. -/
theorem declined_field_is_not_compared :
    ∃ st, computeDiff (some declineAll) (.obj exBefore) exAfter = .ok st ∧
      truthy (declineAll "name" (objGet exAfter "name") (objGet exBefore "name")) = false ∧
      isDeepStrictEqual (objGet exAfter "name") (objGet exBefore "name") = false ∧
      objHas st.diff "name" = false :=
  ⟨_, rfl, rfl, rfl, rfl⟩

/-- Claim C2 (amended): when a custom diff function is supplied and declines for a field `F`
other than `_id`, `F` is not in the diff, whether or not its values in `after` and `before`
are deep-equal; and a declined `_id` keeps the value it has in `after`. -/
theorem declined_field_is_omitted (algo : String → JsVal → JsVal → JsVal) (before after : Obj)
    (F : String) (hdecl : truthy (algo F (objGet after F) (objGet before F)) = false) :
    ∃ st, computeDiff (some algo) (.obj before) after = .ok st ∧
      (F ≠ "_id" → objHas st.diff F = false) ∧
      (F = "_id" → objHas st.diff F = true ∧ objGet st.diff F = objGet after F) := by
  have hu : fieldUpdate (some algo) before after F = none := by simp [fieldUpdate, hdecl]
  refine ⟨_, computeDiff_obj (some algo) before after, ?_, ?_⟩
  · intro hF
    have hF' : ¬ "_id" = F := fun e => hF e.symm
    simp [objHas_applyUpdates, objHas, hF', hu]
  · intro hF
    subst hF
    refine ⟨by simp [objHas_applyUpdates, objHas], ?_⟩
    rw [objGet_applyUpdates_keep _ _ _ _ (fun _ => hu)]
    simp [objGet]

/-- Claim C2 (amended), on the scenario: the declined, changed `name` is not in the diff. -/
theorem declined_field_is_omitted_witness :
    truthy (declineAll "name" (objGet exAfter "name") (objGet exBefore "name")) = false ∧
    ∃ st, computeDiff (some declineAll) (.obj exBefore) exAfter = .ok st ∧
      ("name" ≠ "_id" → objHas st.diff "name" = false) ∧
      ("name" = "_id" → objHas st.diff "name" = true ∧
        objGet st.diff "name" = objGet exAfter "name") :=
  ⟨rfl, declined_field_is_omitted declineAll exBefore exAfter "name" rfl⟩

/-- Claim C5, as stated, fails: the loop visits `_id` like every other key of `after`, so the
custom diff function is invoked for `_id`, and a result it returns there replaces the value
written before the loop. -/
theorem custom_diff_overrides_id :
    ∃ st, computeDiff (some overrideAll) (.obj exBefore) exAfter = .ok st ∧
      objGet st.diff "_id" = .str "X" ∧ objGet exAfter "_id" = .num 1 ∧
      st.calls.map (fun c => c.1) = ["_id", "name", "qty"] :=
  ⟨_, rfl, rfl, rfl, rfl⟩

/-- Claim C5 (amended): with a custom diff function the diff always has an `_id` field; its
value is the one in `after` unless `_id` is a field of `after` for which the custom function
returns a non-empty result, and then it is that result's `diff` member; the custom function is
invoked once for every field of `after`, the identifier included, with the field name and the
values in `after` and `before`. -/
theorem custom_diff_identifier_and_calls (algo : String → JsVal → JsVal → JsVal)
    (before after : Obj) :
    ∃ st, computeDiff (some algo) (.obj before) after = .ok st ∧
      objHas st.diff "_id" = true ∧
      objGet st.diff "_id" =
        (if objHas after "_id" = true ∧
            truthy (algo "_id" (objGet after "_id") (objGet before "_id")) = true
         then readProp (algo "_id" (objGet after "_id") (objGet before "_id")) "diff"
         else objGet after "_id") ∧
      st.calls = (objKeys after).map (fun k => (k, objGet after k, objGet before k)) := by
  refine ⟨_, computeDiff_obj (some algo) before after, ?_, ?_, rfl⟩
  · simp [objHas_applyUpdates, objHas]
  · split
    · rename_i h
      exact objGet_applyUpdates_some _ _ _ _ _ ((objHas_iff_mem_keys _ _).mp h.1)
        (by simp [fieldUpdate, h.2])
    · rename_i h
      rw [objGet_applyUpdates_keep]
      · simp [objGet]
      · intro hm
        have ht : truthy (algo "_id" (objGet after "_id") (objGet before "_id")) = false := by
          by_contra hne
          exact h ⟨(objHas_iff_mem_keys _ _).mpr hm, by simpa using hne⟩
        simp [fieldUpdate, ht]

/-! ## The equality engine is reflexive -/

mutual
theorem isDeepStrictEqual_refl : ∀ v : JsVal, isDeepStrictEqual v v = true
  | .undefined => by simp [isDeepStrictEqual]
  | .null => by simp [isDeepStrictEqual]
  | .bool _ => by simp [isDeepStrictEqual]
  | .num _ => by simp [isDeepStrictEqual]
  | .str _ => by simp [isDeepStrictEqual]
  | .date _ => by simp [isDeepStrictEqual]
  | .arr xs => by
    simp only [isDeepStrictEqual]
    exact deepEqualItems_refl xs
  | .obj fs => by
    simp only [isDeepStrictEqual, beq_self_eq_true, Bool.true_and]
    exact deepEqualFields_of_subset fs fs (fun _ h => h)
theorem deepEqualItems_refl : ∀ xs : List JsVal, deepEqualItems xs xs = true
  | [] => by simp [deepEqualItems]
  | x :: xs => by
    simp only [deepEqualItems, Bool.and_eq_true]
    exact ⟨isDeepStrictEqual_refl x, deepEqualItems_refl xs⟩
theorem deepEqualFields_of_subset :
    ∀ fs gs : List (String × JsVal), (∀ kv ∈ fs, kv ∈ gs) → deepEqualFields fs gs = true
  | [], _, _ => by simp [deepEqualFields]
  | (k, v) :: fs, gs, h => by
    simp only [deepEqualFields, Bool.and_eq_true, List.any_eq_true]
    refine ⟨⟨(k, v), h _ (List.mem_cons_self _ _), ?_⟩, ?_⟩
    · simp [isDeepStrictEqual_refl v]
    · exact deepEqualFields_of_subset fs gs (fun kv hkv => h kv (List.mem_cons_of_mem _ hkv))
end

/-! ## History record builder: claims C9, C10 -/

theorem createHistoryDoc_obj (now : Int) (p : Obj) (op : String) :
    createHistoryDoc now (.obj p) op =
      .ok [("t", .date now), ("o", .str op), ("d", .obj (p.filter (fun kv => kv.1 != "__v")))] := by
  simp [createHistoryDoc, isNullish, ownProps, objSet]

/-- Claim C9: for a payload mapping `p` and an operation code `op`, `createHistoryDoc` returns a
record with exactly the fields `t`, `o`, `d`, whose `o` is `op` and whose `d` is `p` without
its top-level `__v`: `d` has no `__v`, and every other field `k` is in `d` exactly when it is
in `p`, with the same value.  The function only reads `p`; the embedding has no write to it. -/
theorem createHistoryDoc_strips_version_marker (now : Int) (p : Obj) (op k : String)
    (hk : k ≠ "__v") :
    ∃ payload,
      createHistoryDoc now (.obj p) op =
        .ok [("t", .date now), ("o", .str op), ("d", .obj payload)] ∧
      payload = p.filter (fun kv => kv.1 != "__v") ∧
      objHas payload "__v" = false ∧
      objHas payload k = objHas p k ∧ objGet payload k = objGet p k :=
  ⟨_, createHistoryDoc_obj now p op, rfl, objHas_filter_self p "__v",
    objHas_filter_ne p "__v" k hk, objGet_filter_ne p "__v" k hk⟩

/-- Claim C9 on a payload that carries a version marker. -/
theorem createHistoryDoc_strips_version_marker_witness :
    "name" ≠ "__v" ∧
    createHistoryDoc 0 (.obj [("_id", .num 7), ("__v", .num 3), ("name", .str "x")]) "r" =
      .ok [("t", .date 0), ("o", .str "r"), ("d", .obj [("_id", .num 7), ("name", .str "x")])] ∧
    ∃ payload,
      createHistoryDoc 0 (.obj [("_id", .num 7), ("__v", .num 3), ("name", .str "x")]) "r" =
        .ok [("t", .date 0), ("o", .str "r"), ("d", .obj payload)] ∧
      payload = [("_id", .num 7), ("__v", .num 3), ("name", .str "x")].filter
        (fun kv => kv.1 != "__v") ∧
      objHas payload "__v" = false ∧
      objHas payload "name" = objHas [("_id", .num 7), ("__v", .num 3), ("name", .str "x")] "name" ∧
      objGet payload "name" = objGet [("_id", .num 7), ("__v", .num 3), ("name", .str "x")] "name" :=
  ⟨by decide, rfl,
    createHistoryDoc_strips_version_marker 0
      [("_id", .num 7), ("__v", .num 3), ("name", .str "x")] "r" "name" (by decide)⟩

/-- Claim C10: a bulk update with update specification `u` builds a record with operation
`'u'` whose payload comes from `u` alone: the `$set` mapping `s` when `u` has one, and `u`
itself when `u` has no `$set`; in both cases without the top-level version marker, which
`createHistoryDoc` removes from every payload.  No prior state enters the computation. -/
theorem processUpdate_records_update_spec (now : Int) (q : Query) :
    (∀ s, objGet q._update "$set" = .obj s →
      processUpdateArgs now q =
        .ok ⟨q.toObject, .obj s,
          [("t", .date now), ("o", .str "u"), ("d", .obj (s.filter (fun kv => kv.1 != "__v")))],
          q.collectionName⟩) ∧
    (objHas q._update "$set" = false →
      processUpdateArgs now q =
        .ok ⟨q.toObject, .obj q._update,
          [("t", .date now), ("o", .str "u"),
           ("d", .obj (q._update.filter (fun kv => kv.1 != "__v")))],
          q.collectionName⟩) := by
  constructor
  · intro s hs
    simp [processUpdateArgs, hs, truthy, createHistoryDoc_obj]
  · intro hno
    simp [processUpdateArgs, objGet_of_not_has _ _ hno, truthy, createHistoryDoc_obj]

/-- Claim C10, the scenario of the specification: the update `$set: status = "done"` gives the
payload `status = "done"` with operation `'u'`; and an update without `$set` is recorded
whole. -/
theorem processUpdate_records_update_spec_witness :
    processUpdateArgs 0 ⟨[("$set", .obj [("status", .str "done")])], .undefined, "things"⟩ =
      .ok ⟨.undefined, .obj [("status", .str "done")],
        [("t", .date 0), ("o", .str "u"), ("d", .obj [("status", .str "done")])], "things"⟩ ∧
    processUpdateArgs 0 ⟨[("status", .str "done"), ("__v", .num 2)], .undefined, "things"⟩ =
      .ok ⟨.undefined, .obj [("status", .str "done"), ("__v", .num 2)],
        [("t", .date 0), ("o", .str "u"), ("d", .obj [("status", .str "done")])], "things"⟩ :=
  ⟨(processUpdate_records_update_spec 0
      ⟨[("$set", .obj [("status", .str "done")])], .undefined, "things"⟩).1
      [("status", .str "done")] rfl,
   (processUpdate_records_update_spec 0
      ⟨[("status", .str "done"), ("__v", .num 2)], .undefined, "things"⟩).2 rfl⟩

/-! ## Pre-save hook on an existing document: claims C6, C7 -/

theorem applyUpdates_of_all_none (upd : String → Option JsVal) (ks : List String) (o : Obj)
    (h : ∀ k ∈ ks, upd k = none) : applyUpdates upd ks o = o := by
  induction ks generalizing o with
  | nil => rfl
  | cons k ks ih =>
    simp only [applyUpdates, h k (List.mem_cons_self k ks)]
    exact ih o (fun j hj => h j (List.mem_cons_of_mem k hj))

theorem computeDiff_self (d : Obj) :
    computeDiff none (.obj d) d = .ok ⟨[("_id", objGet d "_id")], []⟩ := by
  rw [computeDiff_obj, applyUpdates_of_all_none]
  · rfl
  · intro k _
    simp [fieldUpdate, isDeepStrictEqual_refl]

theorem resolveOriginal_unavailable (doc : Document) (h1 : doc._original = none)
    (h2 : doc.findOne = .ok none) : resolveOriginal doc = .ok (.obj doc.toJSON) := by
  simp [resolveOriginal, h1, h2, isNullish]

/-- Where `toJSON()` and `toObject()` of the document agree, the fallback does what the comment
at lines 70-71 says: with diff-mode on, no custom diff function, no captured original and a
re-fetch that finds nothing, the hook raises no error and the record it builds has operation
`'u'` and a payload with the identifier field only. -/
theorem preSave_unavailable_original_uses_current_state (opts : Options) (now : Int)
    (doc : Document) (hdiff : opts.diffOnly = true) (hcustom : opts.customDiffAlgo = none)
    (hnew : doc.isNew = false) (horig : doc._original = none) (hfetch : doc.findOne = .ok none)
    (hstate : doc.toJSON = doc.toObject) :
    preSaveArgs opts now doc =
      .ok ⟨.obj doc.toObject, .obj doc.toObject,
        [("t", .date now), ("o", .str "u"), ("d", .obj [("_id", objGet doc.toObject "_id")])],
        doc.collectionName⟩ := by
  have hkeep : List.filter (fun kv : String × JsVal => kv.1 != "__v")
      [("_id", objGet doc.toObject "_id")] = [("_id", objGet doc.toObject "_id")] := by
    simp [List.filter]
  simp only [preSaveArgs, hdiff, hnew, hcustom, resolveOriginal_unavailable doc horig hfetch,
    hstate, computeDiff_self, createHistoryDoc_obj, hkeep]
  rfl

/-- The agreeing case on a concrete document. -/
theorem preSave_unavailable_original_uses_current_state_witness :
    preSaveArgs ⟨none, true, none⟩ 0 exOrphan =
      .ok ⟨.obj exAfter, .obj exAfter,
        [("t", .date 0), ("o", .str "u"), ("d", .obj [("_id", .num 1)])], "things"⟩ :=
  preSave_unavailable_original_uses_current_state ⟨none, true, none⟩ 0 exOrphan rfl rfl rfl rfl
    rfl rfl

/-- Claim C6, on the code: with diff-mode on, no custom diff function, no captured original and
a re-fetch that finds nothing, the hook raises no error, but its baseline is `this.toJSON()`
(line 73) while the after snapshot is `this.toObject()` (line 77).  On a document whose two
serialisations differ in `name` the record built, and handed to storage, has operation `'u'`
and the payload `_id`, `name`, not the identifier alone. -/
theorem unavailable_original_baseline_is_toJSON :
    resolveOriginal exDrift = .ok (.obj exDrift.toJSON) ∧
    preSaveArgs ⟨none, true, none⟩ 0 exDrift =
      .ok ⟨.obj [("_id", .num 1), ("name", .str "json"), ("qty", .num 5)],
        .obj [("_id", .num 1), ("name", .str "b"), ("qty", .num 5)],
        [("t", .date 0), ("o", .str "u"), ("d", .obj [("_id", .num 1), ("name", .str "b")])],
        "things"⟩ ∧
    preSave ⟨none, true, none⟩ (fun _ => .ok ()) 0 [] exDrift =
      .ok ⟨[[("t", .date 0), ("o", .str "u"),
             ("d", .obj [("_id", .num 1), ("name", .str "b")])]], [.undefined], []⟩ :=
  ⟨rfl, rfl, rfl⟩

/-- Claim C7, as stated, fails: with diff-mode on and the prior snapshot unresolvable, the
record's payload is the diff of the current state against itself, the identifier alone, and
not the whole current snapshot without its version marker. -/
theorem unresolvable_original_payload_is_not_full_snapshot :
    ∃ a, preSaveArgs ⟨none, true, none⟩ 0 exOrphan = .ok a ∧
      objGet a.historyDoc "d" = .obj [("_id", .num 1)] ∧
      JsVal.obj (exOrphan.toObject.filter (fun kv => kv.1 != "__v")) =
        .obj [("_id", .num 1), ("name", .str "b"), ("qty", .num 5)] ∧
      objGet a.historyDoc "d" ≠ .obj (exOrphan.toObject.filter (fun kv => kv.1 != "__v")) := by
  refine ⟨_, rfl, rfl, rfl, ?_⟩
  intro h
  have h2 : JsVal.obj [("_id", .num 1)] =
      JsVal.obj [("_id", .num 1), ("name", .str "b"), ("qty", .num 5)] := h
  simp at h2

/-- Claim C7 (amended): for a save of an existing document, when diff-mode is off the record
has operation `'u'` and the full-snapshot payload, the whole current snapshot without its
version marker; when diff-mode is on and the prior snapshot is unresolvable the record still
has operation `'u'`. -/
theorem preSave_existing_document_is_update (opts : Options) (now : Int) (doc : Document)
    (hnew : doc.isNew = false) :
    (opts.diffOnly = false →
      preSaveArgs opts now doc =
        .ok ⟨.undefined, .obj doc.toObject,
          [("t", .date now), ("o", .str "u"),
           ("d", .obj (doc.toObject.filter (fun kv => kv.1 != "__v")))],
          doc.collectionName⟩) ∧
    (opts.diffOnly = true → doc._original = none → doc.findOne = .ok none →
      ∃ a, preSaveArgs opts now doc = .ok a ∧ objGet a.historyDoc "o" = .str "u") := by
  constructor
  · intro hoff
    simp [preSaveArgs, hoff, hnew, createHistoryDoc_obj]
  · intro hon horig hfetch
    simp only [preSaveArgs, hon, hnew, resolveOriginal_unavailable doc horig hfetch,
      computeDiff_obj, createHistoryDoc_obj]
    exact ⟨_, rfl, rfl⟩

/-- Claim C7 (amended) on concrete documents: a full snapshot without `__v` when diff-mode is
off, and operation `'u'` when it is on and the prior snapshot is unresolvable. -/
theorem preSave_existing_document_is_update_witness :
    preSaveArgs ⟨none, false, none⟩ 0
        ⟨false, none, .ok none, [("_id", .num 1), ("name", .str "b"), ("__v", .num 4)],
          [("_id", .num 1), ("name", .str "b"), ("__v", .num 4)], "things"⟩ =
      .ok ⟨.undefined, .obj [("_id", .num 1), ("name", .str "b"), ("__v", .num 4)],
        [("t", .date 0), ("o", .str "u"), ("d", .obj [("_id", .num 1), ("name", .str "b")])],
        "things"⟩ ∧
    ∃ a, preSaveArgs ⟨none, true, none⟩ 0 exOrphan = .ok a ∧ objGet a.historyDoc "o" = .str "u" :=
  ⟨(preSave_existing_document_is_update ⟨none, false, none⟩ 0
      ⟨false, none, .ok none, [("_id", .num 1), ("name", .str "b"), ("__v", .num 4)],
        [("_id", .num 1), ("name", .str "b"), ("__v", .num 4)], "things"⟩ rfl).1 rfl,
   (preSave_existing_document_is_update ⟨none, true, none⟩ 0 exOrphan rfl).2 rfl rfl rfl⟩

/-! ## Runs of the metadata enricher: safety -/

theorem runActions_induction (P : EachState → Prop) (save : Storage) (i : Nat)
    (hassign : ∀ st k v, P st → P { st with historyDoc := objSet st.historyDoc k v })
    (hcb : ∀ st err, P st → i ∈ st.waiting →
      P (iteratorCallback save i err { st with cbLog := st.cbLog ++ [(i, err)] }))
    (hthrow : ∀ st err, P st →
      P { st with cbLog := st.cbLog ++ [(i, err)], threw := st.threw ++ [i] }) :
    ∀ (actions : List Action) (st : EachState), P st → P (runActions save i actions st) := by
  intro actions
  induction actions with
  | nil => intro st h; exact h
  | cons a rest ih =>
    intro st h
    cases a with
    | assign k v => exact ih _ (hassign st k v h)
    | cb err =>
      simp only [runActions]
      split
      · rename_i hw
        exact ih _ (hcb st err h hw)
      · exact hthrow st err h

theorem finalCallback_frame (save : Storage) (err : JsVal) (st : EachState) :
    (finalCallback save err st).started = st.started ∧
    (finalCallback save err st).pending = st.pending ∧
    (finalCallback save err st).waiting = st.waiting ∧
    (finalCallback save err st).historyDoc = st.historyDoc := by
  unfold finalCallback
  split
  · exact ⟨rfl, rfl, rfl, rfl⟩
  · split <;> exact ⟨rfl, rfl, rfl, rfl⟩

theorem iteratorCallback_frame (save : Storage) (i : Nat) (err : JsVal) (st : EachState) :
    (iteratorCallback save i err st).started = st.started ∧
    (iteratorCallback save i err st).pending = st.pending ∧
    (iteratorCallback save i err st).waiting = st.waiting.erase i ∧
    (iteratorCallback save i err st).historyDoc = st.historyDoc := by
  unfold iteratorCallback
  simp only
  split
  · simp [finalCallback_frame]
  · split
    · simp [finalCallback_frame]
    · exact ⟨rfl, rfl, rfl, rfl⟩

theorem runActions_frame (save : Storage) (i : Nat) (actions : List Action) (st : EachState) :
    (runActions save i actions st).started = st.started ∧
    (runActions save i actions st).pending = st.pending := by
  refine runActions_induction
    (fun s => s.started = st.started ∧ s.pending = st.pending) save i ?_ ?_ ?_ actions st
    ⟨rfl, rfl⟩
  · intro s k v h; exact h
  · intro s err h _
    simpa [iteratorCallback_frame] using h
  · intro s err h; exact h

theorem runActions_waiting (save : Storage) (i : Nat) (actions : List Action) (st : EachState)
    (j : Nat) (hj : j ∈ st.waiting) (hne : j ≠ i) : j ∈ (runActions save i actions st).waiting := by
  refine runActions_induction (fun s => j ∈ s.waiting) save i ?_ ?_ ?_ actions st hj
  · intro s k v h; exact h
  · intro s err h _
    rw [(iteratorCallback_frame save i err _).2.2.1]
    exact (List.mem_erase_of_ne hne).mpr h
  · intro s err h; exact h

theorem finalCallback_failed (save : Storage) (err : JsVal) (st : EachState) (h : Failed st) :
    Failed (finalCallback save err st) := by
  unfold finalCallback
  simp [h.1, h]

theorem iteratorCallback_failed (save : Storage) (i : Nat) (err : JsVal) (st : EachState)
    (h : Failed st) : Failed (iteratorCallback save i err st) := by
  unfold iteratorCallback
  simp only
  split
  · exact finalCallback_failed save err _ h
  · split
    · exact finalCallback_failed save .null _ h
    · exact h

theorem runActions_failed (save : Storage) (i : Nat) (actions : List Action) (st : EachState)
    (h : Failed st) : Failed (runActions save i actions st) := by
  refine runActions_induction Failed save i ?_ ?_ ?_ actions st h
  · intro s k v hs; exact hs
  · intro s err hs _
    exact iteratorCallback_failed save i err _ hs
  · intro s err hs; exact hs

theorem finalCallback_safe (save : Storage) (err : JsVal) (st : EachState) (h : Safe st)
    (hw : truthy err = false → st.waiting = []) : Safe (finalCallback save err st) := by
  unfold finalCallback
  split
  · exact h
  · rename_i hd
    have hfx : st.fx = noEffects := h.1 (by simpa using hd)
    split
    · rename_i ht
      refine ⟨by simp, fun _ => Or.inl ?_⟩
      simp [ErrOutcome, hfx, noEffects, ht]
    · rename_i ht
      exact ⟨by simp, fun _ => Or.inr (hw (by simpa using ht))⟩

theorem iteratorCallback_safe (save : Storage) (i : Nat) (err : JsVal) (st : EachState)
    (h : Safe st) : Safe (iteratorCallback save i err st) := by
  have hs : Safe { st with waiting := st.waiting.erase i } := by
    refine ⟨h.1, fun hd => ?_⟩
    rcases h.2 hd with h1 | h1
    · exact Or.inl h1
    · exact Or.inr (by simp [h1])
  unfold iteratorCallback
  simp only
  split
  · rename_i ht
    exact finalCallback_safe save err _ hs (fun hf => by simp [ht] at hf)
  · split
    · rename_i he
      exact finalCallback_safe save .null _ hs (fun _ => by simpa using he)
    · exact hs

theorem runActions_safe (save : Storage) (i : Nat) (actions : List Action) (st : EachState)
    (h : Safe st) : Safe (runActions save i actions st) := by
  refine runActions_induction Safe save i ?_ ?_ ?_ actions st h
  · intro s k v hs; exact hs
  · intro s err hs _
    exact iteratorCallback_safe save i err _ hs
  · intro s err hs; exact hs

theorem runActions_cb (save : Storage) (i : Nat) (err : JsVal) (rest : List Action)
    (st : EachState) (hi : i ∈ st.waiting) :
    runActions save i (.cb err :: rest) st =
      runActions save i rest
        (iteratorCallback save i err { st with cbLog := st.cbLog ++ [(i, err)] }) := by
  simp only [runActions]
  rw [if_pos hi]

theorem runActions_assign (save : Storage) (i : Nat) (k : String) (v : JsVal)
    (rest : List Action) (st : EachState) :
    runActions save i (.assign k v :: rest) st =
      runActions save i rest { st with historyDoc := objSet st.historyDoc k v } := rfl

/-- An error passed to `cb` by a descriptor that has not called back yet fails the run. -/
theorem runActions_error_fails (save : Storage) (i : Nat) (m : Metadata) (e v : JsVal)
    (st : EachState) (hs : Safe st) (hi : i ∈ st.waiting) (he : truthy e = true) :
    Failed (runActions save i (completionBody m e v) st) := by
  have hbody : completionBody m e v =
      [Action.cb e, Action.assign m.key v, Action.cb .undefined] := by
    simp [completionBody, he]
  rw [hbody, runActions_cb save i e _ st hi]
  apply runActions_failed
  unfold iteratorCallback
  simp only [he, if_true]
  unfold finalCallback
  simp only
  split
  · rename_i hd
    refine ⟨hd, ?_⟩
    rcases hs.2 hd with h1 | h1
    · exact h1
    · rw [h1] at hi
      simp at hi
  · rename_i hd
    have hfx : st.fx = noEffects := hs.1 (by simpa using hd)
    simp [Failed, ErrOutcome, hfx, noEffects, he]

theorem eachInit_inv (save : Storage) (original d : JsVal) (ms : List Metadata)
    (historyDoc : Obj) : RunInv original d ms (eachInit save ms historyDoc) := by
  have h0 : Safe ⟨historyDoc, 0, [], List.range ms.length, false, [], [], noEffects⟩ :=
    ⟨fun _ => rfl, fun h => by simp at h⟩
  unfold eachInit
  simp only
  split
  · rename_i he
    have hlen : ms.length = 0 := by
      cases ms with
      | nil => rfl
      | cons _ _ => simp at he
    have hf := finalCallback_frame save .null
      ⟨historyDoc, 0, [], List.range ms.length, false, [], [], noEffects⟩
    refine ⟨finalCallback_safe save .null _ h0 (fun _ => by simp [hlen]), ?_, ?_, ?_, ?_⟩
    · rw [hf.2.1]; exact List.nodup_nil
    · rw [hf.2.1]; intro j hj; simp at hj
    · intro j _ hj
      rw [hlen] at hj
      exact absurd hj (Nat.not_lt_zero j)
    · intro i m e v _ _ _ hi _
      rw [hf.1] at hi
      exact absurd hi (Nat.not_lt_zero i)
  · refine ⟨h0, List.nodup_nil, ?_, ?_, ?_⟩
    · intro j hj; simp at hj
    · intro j _ hj
      exact List.mem_range.mpr hj
    · intro i m e v _ _ _ hi _
      exact absurd hi (Nat.not_lt_zero i)

theorem step_inv (save : Storage) (original d : JsVal) (ms : List Metadata) (st : EachState)
    (ev : Event) (h : RunInv original d ms st) :
    RunInv original d ms (step save original d ms st ev) := by
  obtain ⟨hsafe, hnd, hpend, hrest, hfail⟩ := h
  cases ev with
  | start =>
    simp only [step]
    cases hm : ms.get? st.started with
    | none => exact ⟨hsafe, hnd, hpend, hrest, hfail⟩
    | some m =>
      simp only
      cases hit : iteratee original d m with
      | sync actions =>
        simp only
        have hfr := runActions_frame save st.started actions
          { st with started := st.started + 1 }
        refine ⟨runActions_safe save _ _ _ hsafe, ?_, ?_, ?_, ?_⟩
        · rw [hfr.2]; exact hnd
        · rw [hfr.2, hfr.1]
          intro j hj
          have hj' := hpend j hj
          exact ⟨runActions_waiting save _ _ _ j hj'.1 (Nat.ne_of_lt hj'.2),
            Nat.lt_succ_of_lt hj'.2⟩
        · rw [hfr.1]
          intro j hj hjn
          have hj1 : st.started + 1 ≤ j := hj
          exact runActions_waiting save _ _ _ j (hrest j (by omega) hjn) (by omega)
        · intro i m' e v hi hasync he hlt hnp
          rw [hfr.1] at hlt
          rw [hfr.2] at hnp
          apply runActions_failed
          have hne : i ≠ st.started := by
            intro heq
            subst heq
            have hmm : m = m' := Option.some.inj (hm.symm.trans hi)
            subst hmm
            rw [hit] at hasync
            cases hasync
          have hlt' : i < st.started := by
            have : i < st.started + 1 := hlt
            omega
          exact hfail i m' e v hi hasync he hlt' hnp
      | async r =>
        simp only
        have hlen : st.started < ms.length := by
          rcases List.get?_eq_some.mp hm with ⟨hl, _⟩
          exact hl
        refine ⟨hsafe, ?_, ?_, ?_, ?_⟩
        · refine List.Nodup.append hnd (List.nodup_singleton _) ?_
          intro x hx hx'
          have := (hpend x hx).2
          simp at hx'
          omega
        · intro j hj
          rcases List.mem_append.mp hj with hj | hj
          · exact ⟨(hpend j hj).1, Nat.lt_succ_of_lt (hpend j hj).2⟩
          · simp at hj
            subst hj
            exact ⟨hrest _ (Nat.le_refl _) hlen, Nat.lt_succ_self _⟩
        · intro j hj hjn
          have hj1 : st.started + 1 ≤ j := hj
          exact hrest j (by omega) hjn
        · intro i m' e v hi hasync he hlt hnp
          have hnp1 : i ∉ st.pending := fun hx => hnp (List.mem_append_left _ hx)
          have hne : i ≠ st.started := fun heq => hnp (by simp [heq])
          have hlt' : i < st.started := by
            have : i < st.started + 1 := hlt
            omega
          exact hfail i m' e v hi hasync he hlt' hnp1
  | complete i =>
    simp only [step]
    split
    · rename_i hip
      cases hm : ms.get? i with
      | none => exact ⟨hsafe, hnd, hpend, hrest, hfail⟩
      | some m =>
        simp only
        split
        · rename_i err data hit
          have hfr := runActions_frame save i (completionBody m err data)
            { st with pending := st.pending.erase i }
          refine ⟨runActions_safe save _ _ _ hsafe, ?_, ?_, ?_, ?_⟩
          · rw [hfr.2]; exact hnd.erase i
          · rw [hfr.2, hfr.1]
            intro j hj
            have hmem := (List.Nodup.mem_erase_iff hnd).mp hj
            have hj' := hpend j hmem.2
            exact ⟨runActions_waiting save _ _ _ j hj'.1 hmem.1, hj'.2⟩
          · rw [hfr.1]
            intro j hj hjn
            have hlt := (hpend i hip).2
            have hj1 : st.started ≤ j := hj
            exact runActions_waiting save _ _ _ j (hrest j hj hjn) (by omega)
          · intro i' m' e v hi hasync he hlt hnp
            rw [hfr.1] at hlt
            rw [hfr.2] at hnp
            by_cases heq : i' = i
            · subst heq
              have hmm : m = m' := Option.some.inj (hm.symm.trans hi)
              subst hmm
              rw [hit] at hasync
              have hev : err = e ∧ data = v := by simpa using hasync
              obtain ⟨h1, h2⟩ := hev
              subst h1 h2
              exact runActions_error_fails save i' m err data _ hsafe (hpend i' hip).1 he
            · apply runActions_failed
              have hnp1 : i' ∉ st.pending := fun hx => hnp ((List.mem_erase_of_ne heq).mpr hx)
              exact hfail i' m' e v hi hasync he hlt hnp1
        · exact ⟨hsafe, hnd, hpend, hrest, hfail⟩
    · exact ⟨hsafe, hnd, hpend, hrest, hfail⟩

theorem foldl_step_inv (save : Storage) (original d : JsVal) (ms : List Metadata)
    (sched : List Event) (st : EachState) (h : RunInv original d ms st) :
    RunInv original d ms (sched.foldl (step save original d ms) st) := by
  induction sched generalizing st with
  | nil => exact h
  | cons ev rest ih => exact ih _ (step_inv save original d ms st ev h)

theorem setMetadata_inv (save : Storage) (original d : JsVal) (ms : List Metadata)
    (historyDoc : Obj) (sched : List Event) :
    RunInv original d ms (setMetadata save original d ms historyDoc sched) :=
  foldl_step_inv save original d ms sched _ (eachInit_inv save original d ms historyDoc)

/-! ## Persistence: claims C3, C4 -/

/-- Claim C3, on the code: when the storage save of the history record is rejected with `e`,
`saveHistoryModel` never invokes `next`; the rejection stays unhandled.  This holds without
metadata and with an empty metadata list, for the arguments of every hook. -/
theorem saveHistoryModel_rejected_save_never_calls_next
    (c : Option (String → JsVal → JsVal → JsVal)) (b : Bool) (e : JsVal) (sched : List Event)
    (a : SaveArgs) :
    saveHistoryModel ⟨c, b, none⟩ (fun _ => .error e) [] a = ⟨[a.historyDoc], [], [e]⟩ ∧
    saveHistoryModel ⟨c, b, some []⟩ (fun _ => .error e) [] a = ⟨[a.historyDoc], [], [e]⟩ ∧
    (saveHistoryModel ⟨c, b, none⟩ (fun _ => .error e) sched a).nextCalls = [] :=
  ⟨rfl, rfl, rfl⟩

/-- Claim C4: when the completion of an asynchronous metadata descriptor signals an error,
`saveHistoryModel` hands nothing to storage and `next` is invoked once, with an error;
whatever the other descriptors are and in whatever order the completions arrive. -/
theorem saveHistoryModel_async_error_aborts_save (opts : Options) (save : Storage)
    (sched : List Event) (a : SaveArgs) (ms : List Metadata) (i : Nat) (m : Metadata)
    (f : JsFunction) (e v : JsVal)
    (hms : opts.metadata = some ms) (hi : ms.get? i = some m) (hf : m.value = .func f)
    (hlen : f.length = 3) (hsignal : f.completion a.original a.d = some (e, v))
    (he : truthy e = true)
    (harrived : i < (setMetadata save a.original a.d ms a.historyDoc sched).started ∧
      i ∉ (setMetadata save a.original a.d ms a.historyDoc sched).pending) :
    (saveHistoryModel opts save sched a).saves = [] ∧
    ∃ e', (saveHistoryModel opts save sched a).nextCalls = [e'] ∧ truthy e' = true := by
  have hit : iteratee a.original a.d m = .async (some (e, v)) := by
    simp [iteratee, hf, hlen, hsignal]
  have hinv := setMetadata_inv save a.original a.d ms a.historyDoc sched
  have hfailed := hinv.2.2.2.2 i m e v hi hit he harrived.1 harrived.2
  simp only [saveHistoryModel, hms]
  exact hfailed.2

/-- Claim C4 on a run: the constant-field descriptor is applied, then the asynchronous one
signals `"boom"`: nothing is saved and `next` receives `"boom"`. -/
theorem saveHistoryModel_async_error_aborts_save_witness :
    saveHistoryModel ⟨none, false, some exFailingMetadata⟩ (fun _ => .ok ())
        [.start, .start, .complete 1] ⟨.undefined, .obj exAfter, [], "things"⟩ =
      ⟨[], [.str "boom"], []⟩ ∧
    (saveHistoryModel ⟨none, false, some exFailingMetadata⟩ (fun _ => .ok ())
        [.start, .start, .complete 1] ⟨.undefined, .obj exAfter, [], "things"⟩).saves = [] ∧
    ∃ e', (saveHistoryModel ⟨none, false, some exFailingMetadata⟩ (fun _ => .ok ())
        [.start, .start, .complete 1] ⟨.undefined, .obj exAfter, [], "things"⟩).nextCalls = [e'] ∧
      truthy e' = true :=
  ⟨rfl,
   saveHistoryModel_async_error_aborts_save ⟨none, false, some exFailingMetadata⟩
     (fun _ => .ok ()) [.start, .start, .complete 1] ⟨.undefined, .obj exAfter, [], "things"⟩
     exFailingMetadata 1 ⟨"x", .func failingAsync⟩ failingAsync (.str "boom") (.num 7)
     rfl rfl rfl rfl rfl rfl ⟨by decide, by decide⟩⟩

/-! ## Runs of the metadata enricher: completion -/

/-- The effect of `historyDoc[k] = v; cb()` for a descriptor that has not called back. -/
theorem runActions_assign_cb (save : Storage) (hsave : ∀ r, save r = .ok ()) (i : Nat)
    (k : String) (v : JsVal) (o0 d0 : JsVal) (st : EachState)
    (hko : k ≠ "o") (hkd : k ≠ "d") (hi : i ∈ st.waiting)
    (ho : objGet st.historyDoc "o" = o0) (hd : objGet st.historyDoc "d" = d0)
    (hopen : st.done = false → st.fx = noEffects ∧ st.waiting ≠ [])
    (hclosed : st.done = true → st.waiting = [] ∧
      ∃ r, st.fx = ⟨[r], [.undefined], []⟩ ∧ objGet r "o" = o0 ∧ objGet r "d" = d0) :
    let st1 := runActions save i [.assign k v, .cb .undefined] st
    st1.started = st.started ∧ st1.pending = st.pending ∧ st1.waiting = st.waiting.erase i ∧
    objGet st1.historyDoc "o" = o0 ∧ objGet st1.historyDoc "d" = d0 ∧
    (st1.done = false → st1.fx = noEffects ∧ st1.waiting ≠ []) ∧
    (st1.done = true → st1.waiting = [] ∧
      ∃ r, st1.fx = ⟨[r], [.undefined], []⟩ ∧ objGet r "o" = o0 ∧ objGet r "d" = d0) := by
  have hdone : st.done = false := by
    cases hdn : st.done with
    | false => rfl
    | true =>
      have := (hclosed hdn).1
      rw [this] at hi
      simp at hi
  have hfx := (hopen hdone).1
  have ho1 : objGet (objSet st.historyDoc k v) "o" = o0 := by
    rw [objGet_set_other _ _ _ _ hko]; exact ho
  have hd1 : objGet (objSet st.historyDoc k v) "d" = d0 := by
    rw [objGet_set_other _ _ _ _ hkd]; exact hd
  intro st1
  have hst1 : st1 = runActions save i [.assign k v, .cb .undefined] st := rfl
  rw [runActions_assign,
    runActions_cb save i .undefined [] { st with historyDoc := objSet st.historyDoc k v } hi]
    at hst1
  simp only [runActions, iteratorCallback, truthy, Bool.false_eq_true, if_false] at hst1
  by_cases hemp : (st.waiting.erase i).isEmpty = true
  · rw [if_pos hemp] at hst1
    simp only [finalCallback, hdone, Bool.false_eq_true, if_false, truthy, saveThenNext,
      hsave, hfx, noEffects, List.nil_append] at hst1
    rw [hst1]
    refine ⟨rfl, rfl, rfl, ho1, hd1, ?_, ?_⟩
    · intro h; simp at h
    · intro _
      exact ⟨by simpa using hemp, _, rfl, ho1, hd1⟩
  · rw [if_neg hemp] at hst1
    rw [hst1]
    refine ⟨rfl, rfl, rfl, ho1, hd1, ?_, ?_⟩
    · intro _
      exact ⟨hfx, by simpa using hemp⟩
    · intro h
      simp [hdone] at h

theorem iteratee_sync_shape (original d : JsVal) (m : Metadata) (actions : List Action)
    (h : iteratee original d m = .sync actions) :
    ∃ v, actions = [.assign m.key v, .cb .undefined] := by
  unfold iteratee at h
  split at h
  · split at h
    · cases h
    · cases h
      exact ⟨_, rfl⟩
  · cases h
    exact ⟨_, rfl⟩

theorem eachInit_live (save : Storage) (hsave : ∀ r, save r = .ok ()) (ms : List Metadata)
    (historyDoc : Obj) :
    LiveInv ms (objGet historyDoc "o") (objGet historyDoc "d") (eachInit save ms historyDoc) := by
  unfold eachInit
  simp only
  split
  · rename_i he
    have hnil : ms = [] := by
      cases ms with
      | nil => rfl
      | cons _ _ => simp at he
    subst hnil
    simp only [finalCallback, Bool.false_eq_true, if_false, truthy, saveThenNext, hsave,
      noEffects, List.nil_append, List.length_nil, List.range_zero]
    refine ⟨List.nodup_nil, List.nodup_nil, ?_, ?_, rfl, rfl, ?_, ?_⟩
    · intro j hj; simp at hj
    · intro j; simp
    · intro h; simp at h
    · intro _; exact ⟨rfl, _, rfl, rfl, rfl⟩
  · rename_i he
    have hpos : 0 < ms.length := by
      cases ms with
      | nil => simp at he
      | cons _ _ => simp
    refine ⟨List.nodup_range _, List.nodup_nil, ?_, ?_, rfl, rfl, ?_, ?_⟩
    · intro j hj; simp at hj
    · intro j; simp
    · intro _
      refine ⟨rfl, ?_⟩
      intro hr
      have : (List.range ms.length).length = 0 := by
        have h2 : List.range ms.length = [] := hr
        rw [h2]; rfl
      rw [List.length_range] at this
      omega
    · intro h; simp at h

theorem step_live (save : Storage) (hsave : ∀ r, save r = .ok ()) (original d : JsVal)
    (ms : List Metadata) (hkeys : ∀ m ∈ ms, m.key ≠ "o" ∧ m.key ≠ "d")
    (hok : ∀ m ∈ ms, ∀ e v, iteratee original d m = .async (some (e, v)) → truthy e = false)
    (o0 d0 : JsVal) (st : EachState) (ev : Event) (h : LiveInv ms o0 d0 st) :
    LiveInv ms o0 d0 (step save original d ms st ev) := by
  obtain ⟨hwnd, hpnd, hplt, hchar, ho, hd, hopen, hclosed⟩ := h
  cases ev with
  | start =>
    simp only [step]
    cases hm : ms.get? st.started with
    | none => exact ⟨hwnd, hpnd, hplt, hchar, ho, hd, hopen, hclosed⟩
    | some m =>
      have hlen : st.started < ms.length := (List.get?_eq_some.mp hm).1
      have hmem : m ∈ ms := List.get?_mem hm
      simp only
      cases hit : iteratee original d m with
      | sync actions =>
        simp only
        obtain ⟨v, hv⟩ := iteratee_sync_shape original d m actions hit
        subst hv
        have hi : st.started ∈ ({ st with started := st.started + 1 } : EachState).waiting :=
          (hchar st.started).mpr (Or.inr ⟨Nat.le_refl _, hlen⟩)
        obtain ⟨h1, h2, h3, h4, h5, h6, h7⟩ :=
          runActions_assign_cb save hsave st.started m.key v o0 d0
            { st with started := st.started + 1 } (hkeys m hmem).1 (hkeys m hmem).2 hi ho hd
            hopen hclosed
        refine ⟨?_, ?_, ?_, ?_, h4, h5, h6, h7⟩
        · rw [h3]; exact hwnd.erase _
        · rw [h2]; exact hpnd
        · rw [h2, h1]
          intro j hj
          exact Nat.lt_succ_of_lt (hplt j hj)
        · intro j
          rw [h3, h2, h1]
          have he : j ∈ st.waiting.erase st.started ↔ j ≠ st.started ∧ j ∈ st.waiting :=
            List.Nodup.mem_erase_iff hwnd
          simp only at he
          rw [he, hchar j]
          constructor
          · rintro ⟨hne, hp | ⟨hle, hlt⟩⟩
            · exact Or.inl hp
            · exact Or.inr ⟨by show st.started + 1 ≤ j; omega, hlt⟩
          · rintro (hp | ⟨hle, hlt⟩)
            · exact ⟨Nat.ne_of_lt (hplt j hp), Or.inl hp⟩
            · have hle' : st.started + 1 ≤ j := hle
              exact ⟨by omega, Or.inr ⟨by omega, hlt⟩⟩
      | async r =>
        simp only
        refine ⟨hwnd, ?_, ?_, ?_, ho, hd, hopen, hclosed⟩
        · refine List.Nodup.append hpnd (List.nodup_singleton _) ?_
          intro x hx hx'
          have := hplt x hx
          simp at hx'
          omega
        · intro j hj
          rcases List.mem_append.mp hj with hj | hj
          · exact Nat.lt_succ_of_lt (hplt j hj)
          · simp at hj
            subst hj
            exact Nat.lt_succ_self _
        · intro j
          rw [hchar j]
          simp only [List.mem_append, List.mem_singleton]
          constructor
          · rintro (hp | ⟨hle, hlt⟩)
            · exact Or.inl (Or.inl hp)
            · by_cases hj : j = st.started
              · exact Or.inl (Or.inr hj)
              · exact Or.inr ⟨by omega, hlt⟩
          · rintro ((hp | hj) | ⟨hle, hlt⟩)
            · exact Or.inl hp
            · exact Or.inr ⟨by omega, by omega⟩
            · exact Or.inr ⟨by omega, hlt⟩
  | complete i =>
    simp only [step]
    split
    · rename_i hip
      cases hm : ms.get? i with
      | none => exact ⟨hwnd, hpnd, hplt, hchar, ho, hd, hopen, hclosed⟩
      | some m =>
        have hmem : m ∈ ms := List.get?_mem hm
        simp only
        split
        · rename_i err data hit
          have herr : truthy err = false := hok m hmem err data hit
          have hbody : completionBody m err data =
              [Action.assign m.key data, Action.cb .undefined] := by
            simp [completionBody, herr]
          rw [hbody]
          have hi : i ∈ ({ st with pending := st.pending.erase i } : EachState).waiting :=
            (hchar i).mpr (Or.inl hip)
          obtain ⟨h1, h2, h3, h4, h5, h6, h7⟩ :=
            runActions_assign_cb save hsave i m.key data o0 d0
              { st with pending := st.pending.erase i } (hkeys m hmem).1 (hkeys m hmem).2 hi
              ho hd hopen hclosed
          refine ⟨?_, ?_, ?_, ?_, h4, h5, h6, h7⟩
          · rw [h3]; exact hwnd.erase _
          · rw [h2]; exact hpnd.erase _
          · rw [h2, h1]
            intro j hj
            exact hplt j ((List.Nodup.mem_erase_iff hpnd).mp hj).2
          · intro j
            rw [h3, h2, h1]
            have he : j ∈ st.waiting.erase i ↔ j ≠ i ∧ j ∈ st.waiting :=
              List.Nodup.mem_erase_iff hwnd
            have hp : j ∈ st.pending.erase i ↔ j ≠ i ∧ j ∈ st.pending :=
              List.Nodup.mem_erase_iff hpnd
            simp only at he hp
            rw [he, hp, hchar j]
            have hilt := hplt i hip
            constructor
            · rintro ⟨hne, hq | ⟨hle, hlt⟩⟩
              · exact Or.inl ⟨hne, hq⟩
              · exact Or.inr ⟨hle, hlt⟩
            · rintro (⟨hne, hq⟩ | ⟨hle, hlt⟩)
              · exact ⟨hne, Or.inl hq⟩
              · have hle' : st.started ≤ j := hle
                exact ⟨by omega, Or.inr ⟨hle, hlt⟩⟩
        · exact ⟨hwnd, hpnd, hplt, hchar, ho, hd, hopen, hclosed⟩
    · exact ⟨hwnd, hpnd, hplt, hchar, ho, hd, hopen, hclosed⟩

theorem foldl_step_live (save : Storage) (hsave : ∀ r, save r = .ok ()) (original d : JsVal)
    (ms : List Metadata) (hkeys : ∀ m ∈ ms, m.key ≠ "o" ∧ m.key ≠ "d")
    (hok : ∀ m ∈ ms, ∀ e v, iteratee original d m = .async (some (e, v)) → truthy e = false)
    (o0 d0 : JsVal) (sched : List Event) (st : EachState) (h : LiveInv ms o0 d0 st) :
    LiveInv ms o0 d0 (sched.foldl (step save original d ms) st) := by
  induction sched generalizing st with
  | nil => exact h
  | cons ev rest ih => exact ih _ (step_live save hsave original d ms hkeys hok o0 d0 st ev h)

/-- A complete run with a successful save, no failing descriptor and no descriptor keyed `o`
or `d` hands exactly one record to storage, with the operation and payload it was built
with, and invokes `next()` once. -/
theorem setMetadata_complete (save : Storage) (hsave : ∀ r, save r = .ok ()) (original d : JsVal)
    (ms : List Metadata) (hkeys : ∀ m ∈ ms, m.key ≠ "o" ∧ m.key ≠ "d")
    (hok : ∀ m ∈ ms, ∀ e v, iteratee original d m = .async (some (e, v)) → truthy e = false)
    (historyDoc : Obj) (sched : List Event)
    (hstarted : (setMetadata save original d ms historyDoc sched).started = ms.length)
    (hpending : (setMetadata save original d ms historyDoc sched).pending = []) :
    ∃ r, (setMetadata save original d ms historyDoc sched).fx = ⟨[r], [.undefined], []⟩ ∧
      objGet r "o" = objGet historyDoc "o" ∧ objGet r "d" = objGet historyDoc "d" := by
  have hlive : LiveInv ms (objGet historyDoc "o") (objGet historyDoc "d")
      (setMetadata save original d ms historyDoc sched) :=
    foldl_step_live save hsave original d ms hkeys hok _ _ sched _
      (eachInit_live save hsave ms historyDoc)
  obtain ⟨_, _, _, hchar, _, _, hopen, hclosed⟩ := hlive
  have hw : (setMetadata save original d ms historyDoc sched).waiting = [] := by
    apply List.eq_nil_iff_forall_not_mem.mpr
    intro j hj
    rcases (hchar j).mp hj with hp | ⟨hle, hlt⟩
    · rw [hpending] at hp
      simp at hp
    · rw [hstarted] at hle
      omega
  cases hdone : (setMetadata save original d ms historyDoc sched).done with
  | false => exact absurd hw (hopen hdone).2
  | true => exact (hclosed hdone).2

/-! ## Insert: claim C8 -/

/-- Claim C8, as stated, fails: a metadata descriptor keyed `d` overwrites the payload of the
record before it is handed to storage, although no metadata fails and the save succeeds. -/
theorem insert_payload_overwritten_by_metadata_key :
    ∃ r, preSave ⟨none, false, some [⟨"d", .field "_id"⟩]⟩ (fun _ => .ok ()) 0 [.start] exNew =
        .ok ⟨[r], [.undefined], []⟩ ∧
      objGet r "d" = .num 1 ∧
      objGet r "d" ≠ .obj (exNew.toObject.filter (fun kv => kv.1 != "__v")) := by
  refine ⟨_, rfl, rfl, ?_⟩
  intro h
  have h2 : JsVal.num 1 = JsVal.obj (exNew.toObject.filter (fun kv => kv.1 != "__v")) := h
  cases h2

/-- Claim C8 (amended): for a new document, with diff-mode on or off, when the save succeeds,
no asynchronous descriptor signals an error, every descriptor has run to its completion, and
no metadata descriptor is keyed `o` or `d`, the pre-save hook hands exactly one record to
storage, with operation `'i'` and payload the document's snapshot without `__v`, and invokes
`next()` once. -/
theorem preSave_insert_saves_one_record (opts : Options) (save : Storage) (now : Int)
    (sched : List Event) (doc : Document)
    (hnew : doc.isNew = true) (hsave : ∀ r, save r = .ok ())
    (hkeys : ∀ ms, opts.metadata = some ms → ∀ m ∈ ms, m.key ≠ "o" ∧ m.key ≠ "d")
    (hok : ∀ ms, opts.metadata = some ms → ∀ m ∈ ms, ∀ f, m.value = .func f → f.length = 3 →
      ∀ e v, f.completion .undefined (.obj doc.toObject) = some (e, v) → truthy e = false)
    (hsched : ∀ a, preSaveArgs opts now doc = .ok a → scheduleComplete opts save sched a = true) :
    ∃ r, preSave opts save now sched doc = .ok ⟨[r], [.undefined], []⟩ ∧
      objGet r "o" = .str "i" ∧
      objGet r "d" = .obj (doc.toObject.filter (fun kv => kv.1 != "__v")) := by
  have hargs : preSaveArgs opts now doc =
      .ok ⟨.undefined, .obj doc.toObject,
        [("t", .date now), ("o", .str "i"),
         ("d", .obj (doc.toObject.filter (fun kv => kv.1 != "__v")))], doc.collectionName⟩ := by
    simp [preSaveArgs, hnew, createHistoryDoc_obj]
  have hcomplete := hsched _ hargs
  simp only [preSave, hargs, saveHistoryModel]
  cases hms : opts.metadata with
  | none =>
    refine ⟨[("t", .date now), ("o", .str "i"),
      ("d", .obj (doc.toObject.filter (fun kv => kv.1 != "__v")))], ?_, rfl, rfl⟩
    simp [saveThenNext, hsave, noEffects]
  | some ms =>
    simp only [scheduleComplete, hms, Bool.and_eq_true, beq_iff_eq, List.isEmpty_iff]
      at hcomplete
    have hok' : ∀ m ∈ ms, ∀ e v,
        iteratee .undefined (.obj doc.toObject) m = .async (some (e, v)) → truthy e = false := by
      intro m hm e v hit
      unfold iteratee at hit
      split at hit
      · rename_i f hf
        split at hit
        · rename_i hl
          have hc : f.completion .undefined (.obj doc.toObject) = some (e, v) := by
            simpa using hit
          exact hok ms hms m hm f hf hl e v hc
        · cases hit
      · cases hit
    obtain ⟨r, hr, hro, hrd⟩ := setMetadata_complete save hsave .undefined (.obj doc.toObject) ms
      (hkeys ms hms) hok' _ sched hcomplete.1 hcomplete.2
    exact ⟨r, by simp only [hr], hro, hrd⟩

/-- Claim C8 (amended) on a new document with a constant-field and an asynchronous descriptor,
the asynchronous completion arriving after both descriptors were started. -/
theorem preSave_insert_saves_one_record_witness :
    preSave ⟨none, true, some exMetadata⟩ (fun _ => .ok ()) 0 [.start, .start, .complete 1] exNew =
      .ok ⟨[[("t", .date 0), ("o", .str "i"),
             ("d", .obj [("_id", .num 1), ("name", .str "b")]),
             ("title", .str "b"), ("actor", .num 42)]], [.undefined], []⟩ ∧
    ∃ r, preSave ⟨none, true, some exMetadata⟩ (fun _ => .ok ()) 0
          [.start, .start, .complete 1] exNew = .ok ⟨[r], [.undefined], []⟩ ∧
      objGet r "o" = .str "i" ∧
      objGet r "d" = .obj (exNew.toObject.filter (fun kv => kv.1 != "__v")) :=
  ⟨rfl,
   preSave_insert_saves_one_record ⟨none, true, some exMetadata⟩ (fun _ => .ok ()) 0
     [.start, .start, .complete 1] exNew rfl (fun _ => rfl)
     (by
       intro ms hms m hm
       have h : exMetadata = ms := Option.some.inj hms
       subst h
       simp only [exMetadata, List.mem_cons, List.mem_singleton, List.not_mem_nil, or_false]
         at hm
       rcases hm with h | h <;> subst h <;> exact ⟨by decide, by decide⟩)
     (by
       intro ms hms m hm f hf _ e v hc
       have h : exMetadata = ms := Option.some.inj hms
       subst h
       simp only [exMetadata, List.mem_cons, List.mem_singleton, List.not_mem_nil, or_false]
         at hm
       rcases hm with h | h
       · subst h
         cases hf
       · subst h
         have hf' : lookupActor = f := MetaValue.func.inj hf
         subst hf'
         have hev : (JsVal.null, JsVal.num 42) = (e, v) := Option.some.inj hc
         have he : e = JsVal.null := (congrArg Prod.fst hev).symm
         subst he
         rfl)
     (by
       intro a ha
       have h : a = ⟨.undefined, .obj exNew.toObject,
           [("t", .date 0), ("o", .str "i"), ("d", .obj [("_id", .num 1), ("name", .str "b")])],
           "things"⟩ := (Except.ok.inj ha).symm
       subst h
       rfl)⟩

/-! ## Enrichment leaves other fields alone: claim C11 -/

theorem runActions_historyDoc_keep (save : Storage) (i : Nat) (K : String)
    (actions : List Action) (st : EachState)
    (h : ∀ k v, Action.assign k v ∈ actions → k ≠ K) :
    objGet (runActions save i actions st).historyDoc K = objGet st.historyDoc K := by
  induction actions generalizing st with
  | nil => rfl
  | cons a rest ih =>
    have hrest : ∀ k v, Action.assign k v ∈ rest → k ≠ K :=
      fun k v hm => h k v (List.mem_cons_of_mem _ hm)
    cases a with
    | assign k v =>
      rw [runActions_assign, ih _ hrest]
      exact objGet_set_other _ _ _ _ (h k v (List.mem_cons_self _ _))
    | cb err =>
      simp only [runActions]
      split
      · rw [ih _ hrest, (iteratorCallback_frame save i err _).2.2.2]
      · rfl

theorem completionBody_assigns_key (m : Metadata) (err data : JsVal) (k : String) (v : JsVal)
    (h : Action.assign k v ∈ completionBody m err data) : k = m.key := by
  unfold completionBody at h
  split at h <;> simp at h <;> exact h.1

theorem step_historyDoc_keep (save : Storage) (original d : JsVal) (ms : List Metadata)
    (K : String) (hkeys : ∀ m ∈ ms, m.key ≠ K) (st : EachState) (ev : Event) :
    objGet (step save original d ms st ev).historyDoc K = objGet st.historyDoc K := by
  cases ev with
  | start =>
    simp only [step]
    cases hm : ms.get? st.started with
    | none => rfl
    | some m =>
      simp only
      cases hit : iteratee original d m with
      | sync actions =>
        obtain ⟨v, hv⟩ := iteratee_sync_shape original d m actions hit
        subst hv
        simp only
        rw [runActions_historyDoc_keep]
        intro k w hmem
        simp at hmem
        rw [hmem.1]
        exact hkeys m (List.get?_mem hm)
      | async r => rfl
  | complete i =>
    simp only [step]
    split
    · cases hm : ms.get? i with
      | none => rfl
      | some m =>
        simp only
        split
        · rename_i err data hit
          rw [runActions_historyDoc_keep]
          intro k w hmem
          rw [completionBody_assigns_key m err data k w hmem]
          exact hkeys m (List.get?_mem hm)
        · rfl
    · rfl

theorem eachInit_historyDoc (save : Storage) (ms : List Metadata) (historyDoc : Obj) :
    (eachInit save ms historyDoc).historyDoc = historyDoc := by
  unfold eachInit
  simp only
  split
  · exact (finalCallback_frame save .null _).2.2.2
  · rfl

theorem setMetadata_historyDoc_keep (save : Storage) (original d : JsVal) (ms : List Metadata)
    (K : String) (hkeys : ∀ m ∈ ms, m.key ≠ K) (historyDoc : Obj) (sched : List Event) :
    objGet (setMetadata save original d ms historyDoc sched).historyDoc K =
      objGet historyDoc K := by
  unfold setMetadata
  have hgen : ∀ (st : EachState),
      objGet (sched.foldl (step save original d ms) st).historyDoc K = objGet st.historyDoc K := by
    induction sched with
    | nil => intro st; rfl
    | cons ev rest ih =>
      intro st
      simp only [List.foldl]
      rw [ih, step_historyDoc_keep save original d ms K hkeys]
  rw [hgen, eachInit_historyDoc]

/-- Claim C11, as stated, fails: a metadata descriptor keyed `t` replaces the timestamp of the
record, and likewise for `o` and `d`; the write `historyDoc[m.key] = ...` accepts any key. -/
theorem metadata_key_overwrites_timestamp :
    ∃ r, createHistoryDoc 0 (.obj exAfter) "u" = .ok r ∧
      objGet r "t" = .date 0 ∧
      objGet (setMetadata (fun _ => .ok ()) .undefined (.obj exAfter) [⟨"t", .field "name"⟩] r
        [.start]).historyDoc "t" = .str "b" :=
  ⟨_, rfl, rfl, rfl⟩

/-- Claim C11 (amended): for a record built by `createHistoryDoc` and a list of metadata
descriptors none of which is keyed `t`, `o` or `d`, enrichment leaves the timestamp `t`, the
operation code `o` and the payload `d` of the record as they were built, whatever the
descriptors do and in whatever order their completions arrive. -/
theorem setMetadata_keeps_record_fields (save : Storage) (now : Int) (p : Obj) (op : String)
    (original d : JsVal) (ms : List Metadata) (sched : List Event)
    (hkeys : ∀ m ∈ ms, m.key ≠ "t" ∧ m.key ≠ "o" ∧ m.key ≠ "d") :
    ∃ r, createHistoryDoc now (.obj p) op = .ok r ∧
      objGet (setMetadata save original d ms r sched).historyDoc "t" = .date now ∧
      objGet (setMetadata save original d ms r sched).historyDoc "o" = .str op ∧
      objGet (setMetadata save original d ms r sched).historyDoc "d" =
        .obj (p.filter (fun kv => kv.1 != "__v")) := by
  refine ⟨_, createHistoryDoc_obj now p op, ?_, ?_, ?_⟩
  · rw [setMetadata_historyDoc_keep save original d ms "t" (fun m hm => (hkeys m hm).1)]
    rfl
  · rw [setMetadata_historyDoc_keep save original d ms "o" (fun m hm => (hkeys m hm).2.1)]
    rfl
  · rw [setMetadata_historyDoc_keep save original d ms "d" (fun m hm => (hkeys m hm).2.2)]
    rfl

/-- Claim C11 (amended) on a run with a constant-field and an asynchronous descriptor. -/
theorem setMetadata_keeps_record_fields_witness :
    (setMetadata (fun _ => .ok ()) .undefined (.obj exAfter) exMetadata
        [("t", .date 0), ("o", .str "u"), ("d", .obj exAfter)]
        [.start, .start, .complete 1]).historyDoc =
      [("t", .date 0), ("o", .str "u"), ("d", .obj exAfter), ("title", .str "b"),
       ("actor", .num 42)] ∧
    ∃ r, createHistoryDoc 0 (.obj exAfter) "u" = .ok r ∧
      objGet (setMetadata (fun _ => .ok ()) .undefined (.obj exAfter) exMetadata r
        [.start, .start, .complete 1]).historyDoc "t" = .date 0 ∧
      objGet (setMetadata (fun _ => .ok ()) .undefined (.obj exAfter) exMetadata r
        [.start, .start, .complete 1]).historyDoc "o" = .str "u" ∧
      objGet (setMetadata (fun _ => .ok ()) .undefined (.obj exAfter) exMetadata r
        [.start, .start, .complete 1]).historyDoc "d" =
        .obj (exAfter.filter (fun kv => kv.1 != "__v")) :=
  ⟨rfl,
   setMetadata_keeps_record_fields (fun _ => .ok ()) 0 exAfter "u" .undefined (.obj exAfter)
     exMetadata [.start, .start, .complete 1]
     (by
       intro m hm
       simp only [exMetadata, List.mem_cons, List.mem_singleton, List.not_mem_nil, or_false]
         at hm
       rcases hm with h | h <;> subst h <;> exact ⟨by decide, by decide, by decide⟩)⟩

/-! ## What one descriptor does: claims C12, C14, C16 -/

theorem finalCallback_cbLog (save : Storage) (err : JsVal) (st : EachState) :
    (finalCallback save err st).cbLog = st.cbLog := by
  unfold finalCallback
  split
  · rfl
  · split <;> rfl

theorem iteratorCallback_cbLog (save : Storage) (i : Nat) (err : JsVal) (st : EachState) :
    (iteratorCallback save i err st).cbLog = st.cbLog := by
  unfold iteratorCallback
  simp only
  split
  · rw [finalCallback_cbLog]
  · split
    · rw [finalCallback_cbLog]
    · rfl

theorem runActions_last_cb (save : Storage) (i : Nat) (err : JsVal) (st : EachState) :
    (runActions save i [.cb err] st).historyDoc = st.historyDoc ∧
    (runActions save i [.cb err] st).cbLog = st.cbLog ++ [(i, err)] := by
  simp only [runActions]
  split
  · exact ⟨(iteratorCallback_frame save i err _).2.2.2, iteratorCallback_cbLog save i err _⟩
  · exact ⟨rfl, rfl⟩

theorem runActions_assign_then_cb (save : Storage) (i : Nat) (k : String) (v err : JsVal)
    (st : EachState) :
    (runActions save i [.assign k v, .cb err] st).historyDoc = objSet st.historyDoc k v ∧
    (runActions save i [.assign k v, .cb err] st).cbLog = st.cbLog ++ [(i, err)] := by
  rw [runActions_assign]
  exact runActions_last_cb save i err _

theorem runActions_error_body (save : Storage) (i : Nat) (k : String) (e v : JsVal)
    (st : EachState) (hi : i ∈ st.waiting) :
    (runActions save i [.cb e, .assign k v, .cb .undefined] st).historyDoc =
      objSet st.historyDoc k v ∧
    (runActions save i [.cb e, .assign k v, .cb .undefined] st).cbLog =
      st.cbLog ++ [(i, e), (i, .undefined)] := by
  rw [runActions_cb save i e _ st hi]
  have h := runActions_assign_then_cb save i k v .undefined
    (iteratorCallback save i e { st with cbLog := st.cbLog ++ [(i, e)] })
  rw [(iteratorCallback_frame save i e _).2.2.2, iteratorCallback_cbLog] at h
  refine ⟨h.1, ?_⟩
  rw [h.2]
  simp

/-- Claim C12: for a constant-field descriptor with key `K` and field name `F`, the iteratee
writes `record[K] = after[F]` when `after` is a snapshot, and `record[K] = null` when `after`
is `null` or `undefined`; the write is followed by `cb()`. -/
theorem constant_field_descriptor_copies_after (save : Storage) (original : JsVal) (after : Obj)
    (K F : String) (ms : List Metadata) (st : EachState)
    (hm : ms.get? st.started = some ⟨K, .field F⟩) :
    iteratee original (.obj after) ⟨K, .field F⟩ =
      .sync [.assign K (objGet after F), .cb .undefined] ∧
    objGet (step save original (.obj after) ms st .start).historyDoc K = objGet after F ∧
    iteratee original .null ⟨K, .field F⟩ = .sync [.assign K .null, .cb .undefined] ∧
    iteratee original .undefined ⟨K, .field F⟩ = .sync [.assign K .null, .cb .undefined] ∧
    objGet (step save original .null ms st .start).historyDoc K = .null ∧
    objGet (step save original .undefined ms st .start).historyDoc K = .null := by
  refine ⟨rfl, ?_, rfl, rfl, ?_, ?_⟩
  · simp only [step, hm, iteratee, truthy, if_true, readProp, ownProps]
    rw [(runActions_assign_then_cb save _ K _ _ _).1]
    exact objGet_set_same _ _ _
  · simp only [step, hm, iteratee, truthy, Bool.false_eq_true, if_false]
    rw [(runActions_assign_then_cb save _ K _ _ _).1]
    exact objGet_set_same _ _ _
  · simp only [step, hm, iteratee, truthy, Bool.false_eq_true, if_false]
    rw [(runActions_assign_then_cb save _ K _ _ _).1]
    exact objGet_set_same _ _ _

/-- Claim C12, the scenario of the specification: the descriptor `actor` from `userId`, on an
after snapshot with `userId: 42`, gives the record the field `actor: 42`. -/
theorem constant_field_descriptor_copies_after_witness :
    (setMetadata (fun _ => .ok ()) .undefined (.obj [("_id", .num 1), ("userId", .num 42)])
        [⟨"actor", .field "userId"⟩] [("t", .date 0), ("o", .str "i")] [.start]).historyDoc =
      [("t", .date 0), ("o", .str "i"), ("actor", .num 42)] ∧
    iteratee .undefined (.obj [("_id", .num 1), ("userId", .num 42)]) ⟨"actor", .field "userId"⟩ =
      .sync [.assign "actor" (objGet [("_id", .num 1), ("userId", .num 42)] "userId"),
        .cb .undefined] ∧
    objGet (step (fun _ => .ok ()) .undefined (.obj [("_id", .num 1), ("userId", .num 42)])
      [⟨"actor", .field "userId"⟩]
      (eachInit (fun _ => .ok ()) [⟨"actor", .field "userId"⟩] [("t", .date 0)])
      .start).historyDoc "actor" = objGet [("_id", .num 1), ("userId", .num 42)] "userId" :=
  ⟨rfl,
   (constant_field_descriptor_copies_after (fun _ => .ok ()) .undefined
      [("_id", .num 1), ("userId", .num 42)] "actor" "userId" [⟨"actor", .field "userId"⟩]
      (eachInit (fun _ => .ok ()) [⟨"actor", .field "userId"⟩] [("t", .date 0)]) rfl).1,
   (constant_field_descriptor_copies_after (fun _ => .ok ()) .undefined
      [("_id", .num 1), ("userId", .num 42)] "actor" "userId" [⟨"actor", .field "userId"⟩]
      (eachInit (fun _ => .ok ()) [⟨"actor", .field "userId"⟩] [("t", .date 0)]) rfl).2.1⟩

/-- Claim C14: a function-valued descriptor with key `K` and function `f` is treated as
asynchronous exactly when `f` declares three parameters.  Then `f` is called with
`(original, d, completion)`, nothing is written until the completion arrives, and a completion
called with no error and `v` stores `record[K] = v`.  Otherwise `f` is called with
`(original, d)` and its return value is stored in `record[K]` at once. -/
theorem function_descriptor_dispatch (save : Storage) (original d : JsVal) (K : String)
    (f : JsFunction) (ms : List Metadata) (st : EachState) :
    (f.length = 3 →
      iteratee original d ⟨K, .func f⟩ = .async (f.completion original d) ∧
      (ms.get? st.started = some ⟨K, .func f⟩ →
        (step save original d ms st .start).historyDoc = st.historyDoc) ∧
      (∀ i err v, ms.get? i = some ⟨K, .func f⟩ → i ∈ st.pending →
        f.completion original d = some (err, v) → truthy err = false →
        completionBody ⟨K, .func f⟩ err v = [.assign K v, .cb .undefined] ∧
        objGet (step save original d ms st (.complete i)).historyDoc K = v)) ∧
    (f.length ≠ 3 →
      iteratee original d ⟨K, .func f⟩ =
        .sync [.assign K (f.call original d), .cb .undefined] ∧
      (ms.get? st.started = some ⟨K, .func f⟩ →
        objGet (step save original d ms st .start).historyDoc K = f.call original d)) := by
  constructor
  · intro h3
    have hit : iteratee original d ⟨K, .func f⟩ = .async (f.completion original d) := by
      simp [iteratee, h3]
    refine ⟨hit, ?_, ?_⟩
    · intro hm
      simp only [step, hm, hit]
    · intro i err v hm hp hc herr
      have hbody : completionBody ⟨K, .func f⟩ err v = [.assign K v, .cb .undefined] := by
        simp [completionBody, herr]
      refine ⟨hbody, ?_⟩
      simp only [step, hp, if_true, hm, hit, hc, hbody]
      rw [(runActions_assign_then_cb save _ K _ _ _).1]
      exact objGet_set_same _ _ _
  · intro h3
    have hit : iteratee original d ⟨K, .func f⟩ =
        .sync [.assign K (f.call original d), .cb .undefined] := by
      simp [iteratee, h3]
    refine ⟨hit, ?_⟩
    intro hm
    simp only [step, hm, hit]
    rw [(runActions_assign_then_cb save _ K _ _ _).1]
    exact objGet_set_same _ _ _

/-- Claim C14 on a run: the two-parameter function is stored at once, the three-parameter
function when its completion arrives. -/
theorem function_descriptor_dispatch_witness :
    (setMetadata (fun _ => .ok ()) .undefined (.obj exAfter)
        [⟨"label", .func nameOfAfter⟩, ⟨"actor", .func lookupActor⟩] [("t", .date 0)]
        [.start, .start]).historyDoc = [("t", .date 0), ("label", .str "b")] ∧
    (setMetadata (fun _ => .ok ()) .undefined (.obj exAfter)
        [⟨"label", .func nameOfAfter⟩, ⟨"actor", .func lookupActor⟩] [("t", .date 0)]
        [.start, .start, .complete 1]).historyDoc =
      [("t", .date 0), ("label", .str "b"), ("actor", .num 42)] ∧
    iteratee .undefined (.obj exAfter) ⟨"actor", .func lookupActor⟩ =
      .async (lookupActor.completion .undefined (.obj exAfter)) ∧
    iteratee .undefined (.obj exAfter) ⟨"label", .func nameOfAfter⟩ =
      .sync [.assign "label" (nameOfAfter.call .undefined (.obj exAfter)), .cb .undefined] :=
  ⟨rfl, rfl,
   ((function_descriptor_dispatch (fun _ => .ok ()) .undefined (.obj exAfter) "actor" lookupActor
      [] (eachInit (fun _ => .ok ()) [] [])).1 rfl).1,
   ((function_descriptor_dispatch (fun _ => .ok ()) .undefined (.obj exAfter) "label" nameOfAfter
      [] (eachInit (fun _ => .ok ()) [] [])).2 (by decide)).1⟩

/-- Claim C16: when the completion of an asynchronous descriptor with key `K` is called with a
truthy error `e` and data `v`, the completion body is `cb(e)`, then `record[K] = v`, then
`cb()`: in any run, the arrival of that completion logs the two invocations of `cb`, the first
with `e` and the second with no error, and leaves `record[K] = v`. -/
theorem async_error_completion_runs_success_path (save : Storage) (original d : JsVal)
    (ms : List Metadata) (historyDoc : Obj) (sched : List Event) (i : Nat) (K : String)
    (f : JsFunction) (e v : JsVal)
    (hm : ms.get? i = some ⟨K, .func f⟩) (h3 : f.length = 3)
    (hc : f.completion original d = some (e, v)) (he : truthy e = true)
    (hp : i ∈ (setMetadata save original d ms historyDoc sched).pending) :
    completionBody ⟨K, .func f⟩ e v = [.cb e, .assign K v, .cb .undefined] ∧
    (step save original d ms (setMetadata save original d ms historyDoc sched)
        (.complete i)).cbLog =
      (setMetadata save original d ms historyDoc sched).cbLog ++ [(i, e), (i, .undefined)] ∧
    objGet (step save original d ms (setMetadata save original d ms historyDoc sched)
        (.complete i)).historyDoc K = v := by
  have hbody : completionBody ⟨K, .func f⟩ e v = [.cb e, .assign K v, .cb .undefined] := by
    simp [completionBody, he]
  have hit : iteratee original d ⟨K, .func f⟩ = .async (some (e, v)) := by
    simp [iteratee, h3, hc]
  have hinv := setMetadata_inv save original d ms historyDoc sched
  have hw := (hinv.2.2.1 i hp).1
  generalize setMetadata save original d ms historyDoc sched = st at hp hw
  have hbodyrun := runActions_error_body save i K e v
    { st with pending := st.pending.erase i } hw
  refine ⟨hbody, ?_, ?_⟩
  · simp only [step, hp, if_true, hm, hit, hbody]
    exact hbodyrun.2
  · simp only [step, hp, if_true, hm, hit, hbody]
    rw [hbodyrun.1]
    exact objGet_set_same _ _ _

/-- Claim C16 on a run: the failing completion of descriptor 1 logs `cb("boom")` and `cb()`,
and the record still receives the data `7` under the key `x`. -/
theorem async_error_completion_runs_success_path_witness :
    (setMetadata (fun _ => .ok ()) .undefined (.obj exAfter) exFailingMetadata []
        [.start, .start, .complete 1]).cbLog =
      [(0, .undefined), (1, .str "boom"), (1, .undefined)] ∧
    (setMetadata (fun _ => .ok ()) .undefined (.obj exAfter) exFailingMetadata []
        [.start, .start, .complete 1]).historyDoc = [("actor", .str "b"), ("x", .num 7)] ∧
    completionBody ⟨"x", .func failingAsync⟩ (.str "boom") (.num 7) =
      [.cb (.str "boom"), .assign "x" (.num 7), .cb .undefined] ∧
    (step (fun _ => .ok ()) .undefined (.obj exAfter) exFailingMetadata
        (setMetadata (fun _ => .ok ()) .undefined (.obj exAfter) exFailingMetadata []
          [.start, .start]) (.complete 1)).cbLog =
      (setMetadata (fun _ => .ok ()) .undefined (.obj exAfter) exFailingMetadata []
        [.start, .start]).cbLog ++ [(1, .str "boom"), (1, .undefined)] ∧
    objGet (step (fun _ => .ok ()) .undefined (.obj exAfter) exFailingMetadata
        (setMetadata (fun _ => .ok ()) .undefined (.obj exAfter) exFailingMetadata []
          [.start, .start]) (.complete 1)).historyDoc "x" = .num 7 :=
  ⟨rfl, rfl,
   async_error_completion_runs_success_path (fun _ => .ok ()) .undefined (.obj exAfter)
     exFailingMetadata [] [.start, .start] 1 "x" failingAsync (.str "boom") (.num 7)
     rfl rfl rfl rfl (by decide)⟩

/-! ## Custom results and the update payload: claims C15, C17 -/

/-- Claim C15: with a custom diff function, for every field `F` of `after` for which the
function, called with `(F, after[F], before[F])`, returns a truthy result `r`, the diff maps
`F` to `r.diff`, whether or not the two values are deep-equal; and that call is among the
invocations the loop made. -/
theorem custom_result_is_recorded (algo : String → JsVal → JsVal → JsVal) (before after : Obj)
    (F : String) (hF : objHas after F = true)
    (hr : truthy (algo F (objGet after F) (objGet before F)) = true) :
    ∃ st, computeDiff (some algo) (.obj before) after = .ok st ∧
      objHas st.diff F = true ∧
      objGet st.diff F = readProp (algo F (objGet after F) (objGet before F)) "diff" ∧
      (F, objGet after F, objGet before F) ∈ st.calls := by
  have hmem : F ∈ objKeys after := (objHas_iff_mem_keys after F).mp hF
  have hu : fieldUpdate (some algo) before after F =
      some (readProp (algo F (objGet after F) (objGet before F)) "diff") := by
    simp [fieldUpdate, hr]
  refine ⟨_, computeDiff_obj (some algo) before after, ?_, ?_, ?_⟩
  · simp [objHas_applyUpdates, hmem, hu]
  · exact objGet_applyUpdates_some _ _ _ _ _ hmem hu
  · simp only [algoCalls, List.mem_map]
    exact ⟨F, hmem, rfl⟩

/-- Claim C15 on the scenario: `qty` is deep-equal in both snapshots, yet the custom result
puts it in the diff with the value of its `diff` member. -/
theorem custom_result_is_recorded_witness :
    objHas exAfter "qty" = true ∧
    truthy (overrideQty "qty" (objGet exAfter "qty") (objGet exBefore "qty")) = true ∧
    isDeepStrictEqual (objGet exAfter "qty") (objGet exBefore "qty") = true ∧
    computeDiff (some overrideQty) (.obj exBefore) exAfter =
      .ok ⟨[("_id", .num 1), ("qty", .num 0)],
        [("_id", .num 1, .num 1), ("name", .str "b", .str "a"), ("qty", .num 5, .num 5)]⟩ ∧
    ∃ st, computeDiff (some overrideQty) (.obj exBefore) exAfter = .ok st ∧
      objHas st.diff "qty" = true ∧
      objGet st.diff "qty" =
        readProp (overrideQty "qty" (objGet exAfter "qty") (objGet exBefore "qty")) "diff" ∧
      ("qty", objGet exAfter "qty", objGet exBefore "qty") ∈ st.calls :=
  ⟨rfl, rfl, rfl, rfl, custom_result_is_recorded overrideQty exBefore exAfter "qty" rfl rfl⟩

theorem plainDiff_id (before after : Obj) :
    objGet (applyUpdates (fieldUpdate none before after) (objKeys after)
      [("_id", objGet after "_id")]) "_id" = objGet after "_id" := by
  cases hu : fieldUpdate none before after "_id" with
  | none =>
    rw [objGet_applyUpdates_keep _ _ _ _ (fun _ => hu)]
    simp [objGet]
  | some v =>
    have hv : v = objGet after "_id" := by
      simp only [fieldUpdate] at hu
      split at hu
      · exact absurd hu (by simp)
      · exact (Option.some.inj hu).symm
    by_cases hm : "_id" ∈ objKeys after
    · rw [objGet_applyUpdates_some _ _ _ _ _ hm hu, hv]
    · rw [objGet_applyUpdates_keep _ _ _ _ (fun h => absurd h hm)]
      simp [objGet]

theorem plainDiff_field (before after : Obj) (F : String) (hF : F ≠ "_id")
    (hhas : objHas (applyUpdates (fieldUpdate none before after) (objKeys after)
      [("_id", objGet after "_id")]) F = true) :
    objHas after F = true ∧
    objGet (applyUpdates (fieldUpdate none before after) (objKeys after)
      [("_id", objGet after "_id")]) F = objGet after F := by
  have hF' : ¬ "_id" = F := fun e => hF e.symm
  rw [objHas_applyUpdates] at hhas
  simp only [objHas, hF', if_false, Bool.false_or, Bool.and_eq_true, decide_eq_true_eq] at hhas
  obtain ⟨hm, hs⟩ := hhas
  refine ⟨(objHas_iff_mem_keys after F).mpr hm, ?_⟩
  cases hu : fieldUpdate none before after F with
  | none => simp [hu] at hs
  | some v =>
    rw [objGet_applyUpdates_some _ _ _ _ _ hm hu]
    simp only [fieldUpdate] at hu
    split at hu
    · exact absurd hu (by simp)
    · exact (Option.some.inj hu).symm

/-- Claim C17: with diff-mode on and no custom diff function, for every resolved prior snapshot
`before`, the record built for an existing document has operation `'u'` and a payload that is
a sub-mapping of the current snapshot `after`: every field of the payload is `_id` or a field
of `after`, and carries the value it has in `after`; and the payload has no `__v`, whether or
not `__v` differs between `before` and `after`. -/
theorem diff_payload_is_submapping_of_after (opts : Options) (now : Int) (doc : Document)
    (before : Obj) (F : String)
    (hdiff : opts.diffOnly = true) (hcustom : opts.customDiffAlgo = none)
    (hnew : doc.isNew = false) (hres : resolveOriginal doc = .ok (.obj before)) :
    ∃ payload,
      preSaveArgs opts now doc =
        .ok ⟨.obj before, .obj doc.toObject,
          [("t", .date now), ("o", .str "u"), ("d", .obj payload)], doc.collectionName⟩ ∧
      objHas payload "__v" = false ∧
      (objHas payload F = true →
        (F = "_id" ∨ objHas doc.toObject F = true) ∧ objGet payload F = objGet doc.toObject F) := by
  refine ⟨(applyUpdates (fieldUpdate none before doc.toObject) (objKeys doc.toObject)
    [("_id", objGet doc.toObject "_id")]).filter (fun kv => kv.1 != "__v"), ?_,
    objHas_filter_self _ "__v", ?_⟩
  · simp only [preSaveArgs, hdiff, hnew, hcustom, hres, computeDiff_obj, createHistoryDoc_obj]
    rfl
  · intro hhas
    by_cases hv : F = "__v"
    · rw [hv, objHas_filter_self] at hhas
      exact absurd hhas (by simp)
    · rw [objHas_filter_ne _ _ _ hv] at hhas
      rw [objGet_filter_ne _ _ _ hv]
      by_cases hid : F = "_id"
      · subst hid
        exact ⟨Or.inl rfl, plainDiff_id before doc.toObject⟩
      · have h := plainDiff_field before doc.toObject F hid hhas
        exact ⟨Or.inr h.1, h.2⟩

/-- Claim C17 on a document whose version marker changed together with `name`: the payload is
`_id` and `name`, both as in the current snapshot, and has no `__v`. -/
theorem diff_payload_is_submapping_of_after_witness :
    preSaveArgs ⟨none, true, none⟩ 0 exLoaded =
      .ok ⟨.obj (exBefore ++ [("__v", .num 0)]), .obj (exAfter ++ [("__v", .num 1)]),
        [("t", .date 0), ("o", .str "u"), ("d", .obj [("_id", .num 1), ("name", .str "b")])],
        "things"⟩ ∧
    ∃ payload,
      preSaveArgs ⟨none, true, none⟩ 0 exLoaded =
        .ok ⟨.obj (exBefore ++ [("__v", .num 0)]), .obj exLoaded.toObject,
          [("t", .date 0), ("o", .str "u"), ("d", .obj payload)], exLoaded.collectionName⟩ ∧
      objHas payload "__v" = false ∧
      (objHas payload "name" = true →
        ("name" = "_id" ∨ objHas exLoaded.toObject "name" = true) ∧
          objGet payload "name" = objGet exLoaded.toObject "name") :=
  ⟨rfl,
   diff_payload_is_submapping_of_after ⟨none, true, none⟩ 0 exLoaded
     (exBefore ++ [("__v", JsVal.num 0)]) "name" rfl rfl rfl rfl⟩

/-! ## Remove, and the arguments of enrichment: claims C13, C18 -/

/-- Claim C13: for a removed document, both the pre-remove hook of the instance and
`processRemove` behind `findOneAndRemove` build a record with operation `'r'` whose payload is
the document's full snapshot without its version marker. -/
theorem remove_records_full_snapshot (now : Int) (doc : Document) (q : Query) (found : Obj) :
    preRemoveArgs now doc =
      .ok ⟨.obj doc.toObject, .obj doc.toObject,
        [("t", .date now), ("o", .str "r"),
         ("d", .obj (doc.toObject.filter (fun kv => kv.1 != "__v")))], doc.collectionName⟩ ∧
    processRemoveArgs now q found =
      .ok ⟨q.toObject, .obj found,
        [("t", .date now), ("o", .str "r"),
         ("d", .obj (found.filter (fun kv => kv.1 != "__v")))], q.collectionName⟩ := by
  constructor
  · simp [preRemoveArgs, createHistoryDoc_obj]
  · simp [processRemoveArgs, createHistoryDoc_obj]

/-- Claim C13, the scenario of the specification: removing the document with `_id: 7` and
`name: "x"` builds the record with `o: 'r'` and that document as payload, by either path. -/
theorem remove_records_full_snapshot_witness :
    preRemoveArgs 0 exRemoved =
      .ok ⟨.obj [("_id", .num 7), ("name", .str "x")], .obj [("_id", .num 7), ("name", .str "x")],
        [("t", .date 0), ("o", .str "r"), ("d", .obj [("_id", .num 7), ("name", .str "x")])],
        "things"⟩ ∧
    processRemoveArgs 0 ⟨[], .undefined, "things"⟩ [("_id", .num 7), ("name", .str "x")] =
      .ok ⟨.undefined, .obj [("_id", .num 7), ("name", .str "x")],
        [("t", .date 0), ("o", .str "r"), ("d", .obj [("_id", .num 7), ("name", .str "x")])],
        "things"⟩ :=
  remove_records_full_snapshot 0 exRemoved ⟨[], .undefined, "things"⟩
    [("_id", .num 7), ("name", .str "x")]

theorem preSaveArgs_off_diff_path (opts : Options) (now : Int) (doc : Document)
    (hpath : doc.isNew = true ∨ opts.diffOnly = false) :
    preSaveArgs opts now doc =
      .ok ⟨.undefined, .obj doc.toObject,
        [("t", .date now), ("o", .str (if doc.isNew then "i" else "u")),
         ("d", .obj (doc.toObject.filter (fun kv => kv.1 != "__v")))], doc.collectionName⟩ := by
  have hcond : (opts.diffOnly && !doc.isNew) = false := by
    rcases hpath with h | h <;> simp [h]
  simp [preSaveArgs, hcond, createHistoryDoc_obj]

theorem preRemoveArgs_eq (now : Int) (doc : Document) :
    preRemoveArgs now doc =
      .ok ⟨.obj doc.toObject, .obj doc.toObject,
        [("t", .date now), ("o", .str "r"),
         ("d", .obj (doc.toObject.filter (fun kv => kv.1 != "__v")))], doc.collectionName⟩ := by
  simp [preRemoveArgs, createHistoryDoc_obj]

/-- A run over a single synchronous function descriptor, with a save that succeeds: the record
handed to storage carries the value the function returns for `(original, d)`. -/
theorem setMetadata_single_sync (save : Storage) (hsave : ∀ r, save r = .ok ()) (original d : JsVal)
    (K : String) (f : JsFunction) (h3 : f.length ≠ 3) (historyDoc : Obj) :
    (setMetadata save original d [⟨K, .func f⟩] historyDoc [.start]).fx =
      ⟨[objSet historyDoc K (f.call original d)], [.undefined], []⟩ := by
  simp [setMetadata, eachInit, step, iteratee, h3, runActions, iteratorCallback, finalCallback,
    truthy, saveThenNext, hsave, noEffects, List.range_succ]

/-- A run over a single asynchronous function descriptor whose completion arrives without
error, with a save that succeeds: the record handed to storage carries the completion's data
for `(original, d)`. -/
theorem setMetadata_single_async (save : Storage) (hsave : ∀ r, save r = .ok ())
    (original d : JsVal) (K : String) (f : JsFunction) (h3 : f.length = 3) (err v : JsVal)
    (hc : f.completion original d = some (err, v)) (herr : truthy err = false)
    (historyDoc : Obj) :
    (setMetadata save original d [⟨K, .func f⟩] historyDoc [.start, .complete 0]).fx =
      ⟨[objSet historyDoc K v], [.undefined], []⟩ := by
  have hbody : completionBody ⟨K, .func f⟩ err v = [.assign K v, .cb .undefined] := by
    simp [completionBody, herr]
  simp [setMetadata, eachInit, step, iteratee, h3, hc, hbody, runActions,
    iteratorCallback, finalCallback, truthy, saveThenNext, hsave, noEffects, List.range_succ]

/-- Claim C18: on a save that does not take the diff path (the document is new, or diff-mode
is off) the pre-save hook calls `saveHistoryModel`, and through it `setMetadata`, with
`undefined` as `original` and the current snapshot as `d`; on an instance remove the
pre-remove hook calls them with the removed document's snapshot as both.  These are the
arguments the metadata functions receive: with a single function descriptor keyed `K`, the
record handed to storage carries under `K` the value of the function at these two arguments,
returned at once by a synchronous function and delivered to the completion by an asynchronous
one. -/
theorem enrichment_arguments_off_diff_path (opts : Options) (save : Storage) (now : Int)
    (sched : List Event) (doc : Document) (K : String) (f : JsFunction)
    (hpath : doc.isNew = true ∨ opts.diffOnly = false) :
    (preSaveArgs opts now doc =
        .ok ⟨.undefined, .obj doc.toObject,
          [("t", .date now), ("o", .str (if doc.isNew then "i" else "u")),
           ("d", .obj (doc.toObject.filter (fun kv => kv.1 != "__v")))], doc.collectionName⟩ ∧
      (∀ ms, opts.metadata = some ms →
        preSave opts save now sched doc =
          .ok (setMetadata save .undefined (.obj doc.toObject) ms
            [("t", .date now), ("o", .str (if doc.isNew then "i" else "u")),
             ("d", .obj (doc.toObject.filter (fun kv => kv.1 != "__v")))] sched).fx) ∧
      ((∀ r, save r = .ok ()) → opts.metadata = some [⟨K, .func f⟩] → f.length ≠ 3 →
        preSave opts save now [.start] doc =
          .ok ⟨[objSet [("t", .date now), ("o", .str (if doc.isNew then "i" else "u")),
                  ("d", .obj (doc.toObject.filter (fun kv => kv.1 != "__v")))] K
                (f.call .undefined (.obj doc.toObject))], [.undefined], []⟩) ∧
      ((∀ r, save r = .ok ()) → opts.metadata = some [⟨K, .func f⟩] → f.length = 3 →
        ∀ err v, f.completion .undefined (.obj doc.toObject) = some (err, v) →
          truthy err = false →
          preSave opts save now [.start, .complete 0] doc =
            .ok ⟨[objSet [("t", .date now), ("o", .str (if doc.isNew then "i" else "u")),
                    ("d", .obj (doc.toObject.filter (fun kv => kv.1 != "__v")))] K v],
              [.undefined], []⟩)) ∧
    (preRemoveArgs now doc =
        .ok ⟨.obj doc.toObject, .obj doc.toObject,
          [("t", .date now), ("o", .str "r"),
           ("d", .obj (doc.toObject.filter (fun kv => kv.1 != "__v")))], doc.collectionName⟩ ∧
      (∀ ms, opts.metadata = some ms →
        preRemove opts save now sched doc =
          .ok (setMetadata save (.obj doc.toObject) (.obj doc.toObject) ms
            [("t", .date now), ("o", .str "r"),
             ("d", .obj (doc.toObject.filter (fun kv => kv.1 != "__v")))] sched).fx) ∧
      ((∀ r, save r = .ok ()) → opts.metadata = some [⟨K, .func f⟩] → f.length ≠ 3 →
        preRemove opts save now [.start] doc =
          .ok ⟨[objSet [("t", .date now), ("o", .str "r"),
                  ("d", .obj (doc.toObject.filter (fun kv => kv.1 != "__v")))] K
                (f.call (.obj doc.toObject) (.obj doc.toObject))], [.undefined], []⟩) ∧
      ((∀ r, save r = .ok ()) → opts.metadata = some [⟨K, .func f⟩] → f.length = 3 →
        ∀ err v, f.completion (.obj doc.toObject) (.obj doc.toObject) = some (err, v) →
          truthy err = false →
          preRemove opts save now [.start, .complete 0] doc =
            .ok ⟨[objSet [("t", .date now), ("o", .str "r"),
                    ("d", .obj (doc.toObject.filter (fun kv => kv.1 != "__v")))] K v],
              [.undefined], []⟩)) := by
  have hS := preSaveArgs_off_diff_path opts now doc hpath
  have hR := preRemoveArgs_eq now doc
  refine ⟨⟨hS, ?_, ?_, ?_⟩, ⟨hR, ?_, ?_, ?_⟩⟩
  · intro ms hms
    simp only [preSave, hS, saveHistoryModel, hms]
  · intro hsave hms h3
    simp only [preSave, hS, saveHistoryModel, hms]
    rw [setMetadata_single_sync save hsave _ _ K f h3]
  · intro hsave hms h3 err v hc herr
    simp only [preSave, hS, saveHistoryModel, hms]
    rw [setMetadata_single_async save hsave _ _ K f h3 err v hc herr]
  · intro ms hms
    simp only [preRemove, hR, saveHistoryModel, hms]
  · intro hsave hms h3
    simp only [preRemove, hR, saveHistoryModel, hms]
    rw [setMetadata_single_sync save hsave _ _ K f h3]
  · intro hsave hms h3 err v hc herr
    simp only [preRemove, hR, saveHistoryModel, hms]
    rw [setMetadata_single_async save hsave _ _ K f h3 err v hc herr]

/-- Claim C18 on a new document saved with diff-mode on, and on its removal, with a metadata
function that hands back its first argument: the stored record carries `undefined` on save
and the document's snapshot on remove, for the synchronous function and for the asynchronous
one. -/
theorem enrichment_arguments_off_diff_path_witness :
    (exNew.isNew = true ∨ false = false) ∧
    preSave ⟨none, true, some [⟨"before", .func echoOriginal⟩]⟩ (fun _ => .ok ()) 0 [.start]
        exNew =
      .ok ⟨[[("t", .date 0), ("o", .str "i"), ("d", .obj [("_id", .num 1), ("name", .str "b")]),
             ("before", .undefined)]], [.undefined], []⟩ ∧
    preSave ⟨none, true, some [⟨"before", .func echoOriginalLater⟩]⟩ (fun _ => .ok ()) 0
        [.start, .complete 0] exNew =
      .ok ⟨[[("t", .date 0), ("o", .str "i"), ("d", .obj [("_id", .num 1), ("name", .str "b")]),
             ("before", .undefined)]], [.undefined], []⟩ ∧
    preRemove ⟨none, true, some [⟨"before", .func echoOriginal⟩]⟩ (fun _ => .ok ()) 0 [.start]
        exNew =
      .ok ⟨[[("t", .date 0), ("o", .str "r"), ("d", .obj [("_id", .num 1), ("name", .str "b")]),
             ("before", .obj [("_id", .num 1), ("name", .str "b"), ("__v", .num 0)])]],
        [.undefined], []⟩ ∧
    preRemove ⟨none, true, some [⟨"before", .func echoOriginalLater⟩]⟩ (fun _ => .ok ()) 0
        [.start, .complete 0] exNew =
      .ok ⟨[[("t", .date 0), ("o", .str "r"), ("d", .obj [("_id", .num 1), ("name", .str "b")]),
             ("before", .obj [("_id", .num 1), ("name", .str "b"), ("__v", .num 0)])]],
        [.undefined], []⟩ :=
  ⟨Or.inl rfl,
   (enrichment_arguments_off_diff_path ⟨none, true, some [⟨"before", .func echoOriginal⟩]⟩
      (fun _ => .ok ()) 0 [] exNew "before" echoOriginal (Or.inl rfl)).1.2.2.1
      (fun _ => rfl) rfl (by decide),
   (enrichment_arguments_off_diff_path ⟨none, true, some [⟨"before", .func echoOriginalLater⟩]⟩
      (fun _ => .ok ()) 0 [] exNew "before" echoOriginalLater (Or.inl rfl)).1.2.2.2
      (fun _ => rfl) rfl rfl .null .undefined rfl rfl,
   (enrichment_arguments_off_diff_path ⟨none, true, some [⟨"before", .func echoOriginal⟩]⟩
      (fun _ => .ok ()) 0 [] exNew "before" echoOriginal (Or.inl rfl)).2.2.2.1
      (fun _ => rfl) rfl (by decide),
   (enrichment_arguments_off_diff_path ⟨none, true, some [⟨"before", .func echoOriginalLater⟩]⟩
      (fun _ => .ok ()) 0 [] exNew "before" echoOriginalLater (Or.inl rfl)).2.2.2.2
      (fun _ => rfl) rfl rfl .null (.obj exNew.toObject) rfl rfl⟩

end MongooseHistory
